import Mathlib

/-!
# go-hdb option codec (`internal/protocol/option.go`)

A shallow embedding of `plainOptions` and `multiLineOptions` (size, encode,
decode, reset) together with the binary cursor they are written against, and
the properties of the codec proved over that embedding.

Conventions of the embedding:

* Go's fixed-width signed integers are integers of the mathematical type `Int`
  carrying their range; a conversion that can truncate is an explicit wrap.
* `float64` is carried as its IEEE-754 bit pattern (what `math.Float64bits`
  returns), so no floating-point arithmetic is involved.
* A Go map is the function from keys to optional values; `range` over a map is
  a visit order supplied from outside (`plainOptions.IsRange`).
* `plog.Fatalf`, a run-time panic and reading past the end of the stream are
  the three ways an operation ends without a result (`Fault`).
-/

namespace hdb

/-! ## Machine types -/

/-- One octet of the wire stream (Go `byte`). -/
abbrev Byte := Fin 256

/-- Go `int8`. -/
abbrev int8 := {i : Int // -128 ≤ i ∧ i < 128}

/-- Go `int16`. -/
abbrev int16 := {i : Int // -32768 ≤ i ∧ i < 32768}

/-- Go `int32`. -/
abbrev int32 := {i : Int // -2147483648 ≤ i ∧ i < 2147483648}

/-- Go `int64`. -/
abbrev int64 := {i : Int // -9223372036854775808 ≤ i ∧ i < 9223372036854775808}

/-- Go `float64`, carried as its 64-bit pattern. -/
abbrev float64 := {n : Nat // n < 18446744073709551616}

/-- The octet holding the low eight bits of `x`. -/
def byteOf (x : Nat) : Byte := ⟨x % 256, Nat.mod_lt x (by decide)⟩

/-- Go conversion `int8(i)`: keeps the low 8 bits, read as two's complement. -/
def toInt8 (i : Int) : int8 := ⟨(i + 128) % 256 - 128, by omega⟩

/-- Go conversion `int16(i)`: keeps the low 16 bits, read as two's complement. -/
def toInt16 (i : Int) : int16 := ⟨(i + 32768) % 65536 - 32768, by omega⟩

/-- Go conversion `int32(i)`: keeps the low 32 bits, read as two's complement. -/
def toInt32 (i : Int) : int32 := ⟨(i + 2147483648) % 4294967296 - 2147483648, by omega⟩

/-- Go conversion `int64(i)`: keeps the low 64 bits, read as two's complement. -/
def toInt64 (i : Int) : int64 :=
  ⟨(i + 9223372036854775808) % 18446744073709551616 - 9223372036854775808, by omega⟩

/-- The `n` low-order octets of `x`, least significant first. -/
def leBytes : Nat → Nat → List Byte
  | 0, _ => []
  | n + 1, x => byteOf x :: leBytes n (x / 256)

/-- The number whose little-endian octets are `bs`. -/
def leNat : List Byte → Nat
  | [] => 0
  | b :: bs => b.val + 256 * leNat bs

/-- The ways an operation of the codec ends without a result. -/
inductive Fault
  /-- The call `plog.Fatalf("type code %s not implemented", typeCode(tc))` of decode. -/
  | fatalTypeCode (tc : Byte)
  /-- The call `plog.Fatalf("type %T not implemented", v)` of size and encode. -/
  | fatalType
  /-- Run-time panic of `make([]byte, size)` with a negative size. -/
  | panicMakeslice
  /-- Run-time panic of a slice expression or index out of range. -/
  | panicBounds
  /-- The stream ended inside a read of the cursor. -/
  | truncated
  deriving DecidableEq, Repr

/-! ## Binary cursor -/

/-- Modelled from the spec: the writing half of the Binary Cursor
(`encoding.Encoder`, not among the sources): "a sequential byte-stream
reader/writer ... supporting fixed-width integer, float, boolean, and raw-byte
primitives, each at known width". The state is the octets written so far. The
octet order inside a multi-octet primitive is little-endian, the order of the
wire protocol; the spec fixes only the widths. -/
structure Encoder where
  wr : List Byte
  deriving DecidableEq, Repr

/-- Modelled from the spec: `Encoder.Bytes`, raw octets as they are. -/
def Encoder.Bytes (e : Encoder) (p : List Byte) : Encoder := ⟨e.wr ++ p⟩

/-- Modelled from the spec: `Encoder.Int8`, one octet. -/
def Encoder.Int8 (e : Encoder) (i : int8) : Encoder :=
  ⟨e.wr ++ leBytes 1 (i.val % 256).toNat⟩

/-- Modelled from the spec: `Encoder.Int16`, two octets. -/
def Encoder.Int16 (e : Encoder) (i : int16) : Encoder :=
  ⟨e.wr ++ leBytes 2 (i.val % 65536).toNat⟩

/-- Modelled from the spec: `Encoder.Int32`, four octets. -/
def Encoder.Int32 (e : Encoder) (i : int32) : Encoder :=
  ⟨e.wr ++ leBytes 4 (i.val % 4294967296).toNat⟩

/-- Modelled from the spec: `Encoder.Int64`, eight octets. -/
def Encoder.Int64 (e : Encoder) (i : int64) : Encoder :=
  ⟨e.wr ++ leBytes 8 (i.val % 18446744073709551616).toNat⟩

/-- Modelled from the spec: `Encoder.Float64`, the eight octets of the bit pattern. -/
def Encoder.Float64 (e : Encoder) (f : float64) : Encoder :=
  ⟨e.wr ++ leBytes 8 f.val⟩

/-- Modelled from the spec: `Encoder.Bool`, one octet, 1 for true and 0 for false. -/
def Encoder.Bool (e : Encoder) (v : Bool) : Encoder :=
  ⟨e.wr ++ [if v then 1 else 0]⟩

/-- Modelled from the spec: the reading half of the Binary Cursor
(`encoding.Decoder`, not among the sources), "tracking its own position":
`rd` is what is still unread and `cnt` the number of octets consumed. A read
past the end is the spec's protocol fault "truncated stream". -/
structure Decoder where
  rd : List Byte
  cnt : Nat
  deriving DecidableEq, Repr

/-- Modelled from the spec: the cursor consumes exactly `n` octets. -/
def Decoder.read (d : Decoder) (n : Nat) : Except Fault (List Byte × Decoder) :=
  if n ≤ d.rd.length then .ok (d.rd.take n, ⟨d.rd.drop n, d.cnt + n⟩)
  else .error .truncated

/-- Modelled from the spec: `Decoder.Bytes(p)`, fills `p`, that is reads `len(p)` octets. -/
def Decoder.Bytes (d : Decoder) (n : Nat) : Except Fault (List Byte × Decoder) :=
  d.read n

/-- Modelled from the spec: `Decoder.Int8`, one octet read as two's complement. -/
def Decoder.Int8 (d : Decoder) : Except Fault (int8 × Decoder) :=
  match d.read 1 with
  | .error f => .error f
  | .ok (bs, d1) => .ok (toInt8 (leNat bs), d1)

/-- Modelled from the spec: `Decoder.Int16`, two octets. -/
def Decoder.Int16 (d : Decoder) : Except Fault (int16 × Decoder) :=
  match d.read 2 with
  | .error f => .error f
  | .ok (bs, d1) => .ok (toInt16 (leNat bs), d1)

/-- Modelled from the spec: `Decoder.Int32`, four octets. -/
def Decoder.Int32 (d : Decoder) : Except Fault (int32 × Decoder) :=
  match d.read 4 with
  | .error f => .error f
  | .ok (bs, d1) => .ok (toInt32 (leNat bs), d1)

/-- Modelled from the spec: `Decoder.Int64`, eight octets. -/
def Decoder.Int64 (d : Decoder) : Except Fault (int64 × Decoder) :=
  match d.read 8 with
  | .error f => .error f
  | .ok (bs, d1) => .ok (toInt64 (leNat bs), d1)

/-- Modelled from the spec: `Decoder.Float64`, eight octets taken as the bit pattern. -/
def Decoder.Float64 (d : Decoder) : Except Fault (float64 × Decoder) :=
  match d.read 8 with
  | .error f => .error f
  | .ok (bs, d1) =>
    .ok (⟨leNat bs % 18446744073709551616, Nat.mod_lt _ (by decide)⟩, d1)

/-- Modelled from the spec: `Decoder.Bool`, one octet, true when it is not zero. -/
def Decoder.Bool (d : Decoder) : Except Fault (Bool × Decoder) :=
  match d.read 1 with
  | .error f => .error f
  | .ok (bs, d1) => .ok (decide (leNat bs ≠ 0), d1)

/-- Modelled from the spec: `Decoder.Byte`, one octet. -/
def Decoder.Byte (d : Decoder) : Except Fault (Byte × Decoder) :=
  match d.read 1 with
  | .error f => .error f
  | .ok (bs, d1) => .ok (byteOf (leNat bs), d1)

/-! ## Option values and type codes -/

/-- The six `typeCode` constants `option.go` switches on. Their declaration is
not among the sources, so the codes are a parameter; a Go `switch` with constant
cases has pairwise distinct cases, which is `distinct`. -/
structure TypeCodes where
  tcBoolean : Byte
  tcInteger : Byte
  tcBigint : Byte
  tcDouble : Byte
  tcString : Byte
  tcBstring : Byte
  distinct : [tcBoolean, tcInteger, tcBigint, tcDouble, tcString, tcBstring].Nodup

/-- Whether `t` is one of the six codes. -/
def TypeCodes.known (tc : TypeCodes) (t : Byte) : Prop :=
  t ∈ [tc.tcBoolean, tc.tcInteger, tc.tcBigint, tc.tcDouble, tc.tcString, tc.tcBstring]

instance (tc : TypeCodes) (t : Byte) : Decidable (tc.known t) := by
  unfold TypeCodes.known
  infer_instance

/-- The codes of the wire protocol, for evaluating the codec on concrete input. -/
def hdbTypeCodes : TypeCodes := ⟨28, 3, 4, 7, 29, 33, by decide⟩

/-- The dynamic value stored under an option key (`interface{}`): one of the six
option types of `option.go`, or a value of any other dynamic type (`other`),
which size and encode meet in their `default` branch. -/
inductive optValue
  | optBooleanType (v : Bool)
  | optIntType (v : int32)
  | optBigintType (v : int64)
  | optDoubleType (v : float64)
  | optStringType (v : List Byte)
  | optBinaryStringType (v : List Byte)
  | other
  deriving DecidableEq, Repr

/-- The option key: `connectOption`, convertible to and from `int8`. -/
abbrev connectOption := int8

/-- Every value of the key type, in increasing order. -/
def connectOption.all : List connectOption :=
  (List.finRange 256).map (fun i => ⟨(i.val : Int) - 128, by have := i.isLt; omega⟩)

/-! ## plainOptions -/

/-- Option Block: `type plainOptions map[connectOption]interface{}`. -/
def plainOptions := connectOption → Option optValue

/-- The map literal `plainOptions{}` (a nil map reads the same). -/
def plainOptions.empty : plainOptions := fun _ => none

/-- The assignment `o[k] = v`. -/
def plainOptions.set (o : plainOptions) (k : connectOption) (v : optValue) : plainOptions :=
  fun j => if j = k then some v else o j

/-- The entries of the map, listed by increasing key. -/
def plainOptions.entries (o : plainOptions) : List (connectOption × optValue) :=
  connectOption.all.filterMap (fun k => (o k).map (fun v => (k, v)))

/-- The builtin `len(o)`. -/
def plainOptions.len (o : plainOptions) : Nat := o.entries.length

/-- The order of one `for k, v := range o`: every entry of the map exactly once,
in an order the runtime is free to choose. -/
def plainOptions.IsRange (o : plainOptions) (trav : List (connectOption × optValue)) : Prop :=
  (trav.map Prod.fst).Nodup ∧ ∀ k v, (k, v) ∈ trav ↔ o k = some v

/-- The loop of `plainOptions.size` over the visit order `trav`. -/
def plainOptions.sizeLoop : List (connectOption × optValue) → Nat → Except Fault Nat
  | [], size => .ok size
  | (_, v) :: rest, size =>
    match v with
    | .other => .error .fatalType
    | .optBooleanType _ => plainOptions.sizeLoop rest (size + 1)
    | .optIntType _ => plainOptions.sizeLoop rest (size + 4)
    | .optBigintType _ => plainOptions.sizeLoop rest (size + 8)
    | .optDoubleType _ => plainOptions.sizeLoop rest (size + 8)
    | .optStringType v => plainOptions.sizeLoop rest (size + (2 + v.length))
    | .optBinaryStringType v => plainOptions.sizeLoop rest (size + (2 + v.length))

/-- The method `func (o plainOptions) size() int`; `trav` is the order in which its
`range` visits the map. The result is far below the range of `int`, so it is a
natural number. -/
def plainOptions.size (o : plainOptions) (trav : List (connectOption × optValue)) :
    Except Fault Nat :=
  plainOptions.sizeLoop trav (2 * o.len)

/-- The method `func (o plainOptions) encode(enc *encoding.Encoder)`, its loop body
folded over the order `trav` in which `range o` visits the map. -/
def plainOptions.encode (tc : TypeCodes) :
    List (connectOption × optValue) → Encoder → Except Fault Encoder
  | [], enc => .ok enc
  | (k, v) :: rest, enc =>
    let enc := enc.Int8 k
    match v with
    | .other => .error .fatalType
    | .optBooleanType v =>
      plainOptions.encode tc rest ((enc.Int8 (toInt8 tc.tcBoolean.val)).Bool v)
    | .optIntType v =>
      plainOptions.encode tc rest ((enc.Int8 (toInt8 tc.tcInteger.val)).Int32 v)
    | .optBigintType v =>
      plainOptions.encode tc rest ((enc.Int8 (toInt8 tc.tcBigint.val)).Int64 v)
    | .optDoubleType v =>
      plainOptions.encode tc rest ((enc.Int8 (toInt8 tc.tcDouble.val)).Float64 v)
    | .optStringType v =>
      plainOptions.encode tc rest
        (((enc.Int8 (toInt8 tc.tcString.val)).Int16 (toInt16 v.length)).Bytes v)
    | .optBinaryStringType v =>
      plainOptions.encode tc rest
        (((enc.Int8 (toInt8 tc.tcBstring.val)).Int16 (toInt16 v.length)).Bytes v)

/-- One iteration of the loop of `plainOptions.decode`: key, type code, then the
value of the type the code names, stored under the key. -/
def plainOptions.decodeStep (tc : TypeCodes) (o : plainOptions) (dec : Decoder) :
    Except Fault (plainOptions × Decoder) :=
  match dec.Int8 with
  | .error f => .error f
  | .ok (k, dec) =>
    match dec.Byte with
    | .error f => .error f
    | .ok (t, dec) =>
      if t = tc.tcBoolean then
        match dec.Bool with
        | .error f => .error f
        | .ok (v, dec) => .ok (o.set k (.optBooleanType v), dec)
      else if t = tc.tcInteger then
        match dec.Int32 with
        | .error f => .error f
        | .ok (v, dec) => .ok (o.set k (.optIntType v), dec)
      else if t = tc.tcBigint then
        match dec.Int64 with
        | .error f => .error f
        | .ok (v, dec) => .ok (o.set k (.optBigintType v), dec)
      else if t = tc.tcDouble then
        match dec.Float64 with
        | .error f => .error f
        | .ok (v, dec) => .ok (o.set k (.optDoubleType v), dec)
      else if t = tc.tcString then
        match dec.Int16 with
        | .error f => .error f
        | .ok (size, dec) =>
          if size.val < 0 then .error .panicMakeslice
          else
            match dec.Bytes size.val.toNat with
            | .error f => .error f
            | .ok (v, dec) => .ok (o.set k (.optStringType v), dec)
      else if t = tc.tcBstring then
        match dec.Int16 with
        | .error f => .error f
        | .ok (size, dec) =>
          if size.val < 0 then .error .panicMakeslice
          else
            match dec.Bytes size.val.toNat with
            | .error f => .error f
            | .ok (v, dec) => .ok (o.set k (.optBinaryStringType v), dec)
      else .error (.fatalTypeCode t)

/-- The loop `for i := 0; i < cnt; i++` of decode with `n` iterations left. -/
def plainOptions.decodeLoop (tc : TypeCodes) :
    Nat → plainOptions → Decoder → Except Fault (plainOptions × Decoder)
  | 0, o, dec => .ok (o, dec)
  | n + 1, o, dec =>
    match plainOptions.decodeStep tc o dec with
    | .error f => .error f
    | .ok (o1, dec1) => plainOptions.decodeLoop tc n o1 dec1

/-- The method `func (o plainOptions) decode(dec *encoding.Decoder, cnt int)`: the
map is updated in place, so the updated map is part of the result. A count that
is not positive gives no iteration. -/
def plainOptions.decode (tc : TypeCodes) (o : plainOptions) (dec : Decoder) (cnt : Int) :
    Except Fault (plainOptions × Decoder) :=
  plainOptions.decodeLoop tc cnt.toNat o dec

/-! ## Wire image of a block -/

/-- The octet `Encoder.Int8` writes for a key. -/
def keyByte (k : connectOption) : Byte := byteOf (k.val % 256).toNat

/-- The payload width of a value as the spec tabulates it: 1, 4, 8, 8 octets for
boolean, int32, int64, float64 and 2+N for a text or binary value of N octets. -/
def optValue.payloadWidth : optValue → Nat
  | .optBooleanType _ => 1
  | .optIntType _ => 4
  | .optBigintType _ => 8
  | .optDoubleType _ => 8
  | .optStringType v => 2 + v.length
  | .optBinaryStringType v => 2 + v.length
  | .other => 0

/-- The wire size of one entry in the spec's words: 1 byte key + 1 byte type
tag + variant payload width. -/
def optValue.entryWireSize (v : optValue) : Nat := 1 + 1 + v.payloadWidth

/-- The size of a block in the spec's words: the sum over its entries of the
entry wire size. The entries are taken by increasing key. -/
def plainOptions.specSize (o : plainOptions) : Nat :=
  (o.entries.map (fun e => e.2.entryWireSize)).sum

/-- The octets of one entry on the wire: key, type tag, payload; a text or
binary payload is its length in 16 bits followed by the octets. A value of a
type outside the six has no wire image and stands for no octets. -/
def plainOptions.entryBytes (tc : TypeCodes) : connectOption × optValue → List Byte
  | (_, .other) => []
  | (k, .optBooleanType v) => keyByte k :: tc.tcBoolean :: [if v then 1 else 0]
  | (k, .optIntType v) => keyByte k :: tc.tcInteger :: leBytes 4 (v.val % 4294967296).toNat
  | (k, .optBigintType v) =>
    keyByte k :: tc.tcBigint :: leBytes 8 (v.val % 18446744073709551616).toNat
  | (k, .optDoubleType v) => keyByte k :: tc.tcDouble :: leBytes 8 v.val
  | (k, .optStringType v) => keyByte k :: tc.tcString :: (leBytes 2 v.length ++ v)
  | (k, .optBinaryStringType v) => keyByte k :: tc.tcBstring :: (leBytes 2 v.length ++ v)

/-- The octets of the entries of a visit order, one entry after the other. -/
def plainOptions.wireBytes (tc : TypeCodes) (trav : List (connectOption × optValue)) :
    List Byte :=
  (trav.map (plainOptions.entryBytes tc)).flatten

/-- A block holding three entries, for evaluating the codec. -/
def sampleBlock : plainOptions :=
  ((plainOptions.empty.set ⟨1, by decide⟩ (.optBooleanType true)).set ⟨-2, by decide⟩
    (.optIntType ⟨-5, by decide⟩)).set ⟨3, by decide⟩ (.optStringType [7, 8])

/-- One visit order of `sampleBlock`. -/
def sampleRange : List (connectOption × optValue) :=
  [(⟨3, by decide⟩, .optStringType [7, 8]), (⟨1, by decide⟩, .optBooleanType true),
   (⟨-2, by decide⟩, .optIntType ⟨-5, by decide⟩)]

/-- Another visit order of `sampleBlock`. -/
def sampleRange2 : List (connectOption × optValue) :=
  [(⟨-2, by decide⟩, .optIntType ⟨-5, by decide⟩), (⟨3, by decide⟩, .optStringType [7, 8]),
   (⟨1, by decide⟩, .optBooleanType true)]

/-! ## Entries as they lie on the wire -/

/-- One entry of a block on the wire: key octet, type-tag octet, payload octets. -/
structure WireEntry where
  key : Byte
  tag : Byte
  payload : List Byte
  deriving DecidableEq, Repr

/-- The octets of a wire entry. -/
def WireEntry.bytes (w : WireEntry) : List Byte := w.key :: w.tag :: w.payload

/-- The octets of a run of wire entries. -/
def WireEntry.flat (ws : List WireEntry) : List Byte := (ws.map WireEntry.bytes).flatten

/-- The key a wire entry is stored under. -/
def WireEntry.optKey (w : WireEntry) : connectOption := toInt8 w.key.val

/-- The value a wire entry stands for, by the wire layout of the spec (`bool:1B`,
`int32:4B`, `int64:8B`, `float64:8B`, `len:int16 + bytes:len`): `none` when the
tag is none of the six codes, when the payload has not the width of its tag, or
when the 16-bit length of a text or binary payload is negative or is not the
number of octets that follow it. -/
def WireEntry.value (tc : TypeCodes) (w : WireEntry) : Option optValue :=
  if w.tag = tc.tcBoolean then
    if w.payload.length = 1 then some (.optBooleanType (decide (leNat w.payload ≠ 0)))
    else none
  else if w.tag = tc.tcInteger then
    if w.payload.length = 4 then some (.optIntType (toInt32 (leNat w.payload))) else none
  else if w.tag = tc.tcBigint then
    if w.payload.length = 8 then some (.optBigintType (toInt64 (leNat w.payload))) else none
  else if w.tag = tc.tcDouble then
    if w.payload.length = 8 then
      some (.optDoubleType ⟨leNat w.payload % 18446744073709551616, Nat.mod_lt _ (by decide)⟩)
    else none
  else if w.tag = tc.tcString then
    if leNat (w.payload.take 2) < 32768 ∧ w.payload.length = 2 + leNat (w.payload.take 2) then
      some (.optStringType (w.payload.drop 2))
    else none
  else if w.tag = tc.tcBstring then
    if leNat (w.payload.take 2) < 32768 ∧ w.payload.length = 2 + leNat (w.payload.take 2) then
      some (.optBinaryStringType (w.payload.drop 2))
    else none
  else none

/-- A wire entry with a known tag, a payload of the width of its tag and, for
text and binary, a non-negative length followed by that many octets. -/
def WireEntry.WellFormed (tc : TypeCodes) (w : WireEntry) : Prop := w.value tc ≠ none

instance (tc : TypeCodes) (w : WireEntry) : Decidable (w.WellFormed tc) := by
  unfold WireEntry.WellFormed
  infer_instance

/-- The block after the entry `w` is stored into it. -/
def plainOptions.put (tc : TypeCodes) (o : plainOptions) (w : WireEntry) : plainOptions :=
  match w.value tc with
  | some v => o.set w.optKey v
  | none => o

/-- The block after the entries `ws` are stored into it, first to last. -/
def plainOptions.putAll (tc : TypeCodes) (o : plainOptions) (ws : List WireEntry) :
    plainOptions :=
  ws.foldl (plainOptions.put tc) o

/-- The block after the assignments `o[k] = v` for the entries of `l`, first to last. -/
def plainOptions.setAll (o : plainOptions) (l : List (connectOption × optValue)) :
    plainOptions :=
  l.foldl (fun o e => o.set e.1 e.2) o

/-- A value encode and decode agree on: one of the six option types, a text or
binary value being at most 32767 octets long, the largest length an `int16`
holds. -/
def optValue.Fits : optValue → Prop
  | .optStringType v => v.length ≤ 32767
  | .optBinaryStringType v => v.length ≤ 32767
  | .other => False
  | _ => True

/-! ## multiLineOptions -/

/-- Option Sequence: `type multiLineOptions []plainOptions`. A slice is its backing
array from the first element of the slice on, `array`, whose length is the
capacity, and its length `len`; the elements of the slice are the first `len`
of `array`. -/
structure multiLineOptions where
  array : List plainOptions
  len : Nat

/-- The builtin `cap(*o)`. -/
def multiLineOptions.cap (o : multiLineOptions) : Nat := o.array.length

/-- The elements of the slice, those `range` visits in order. -/
def multiLineOptions.elems (o : multiLineOptions) : List plainOptions := o.array.take o.len

/-- The loop of `multiLineOptions.size`; `rng i` is the order in which the size of
the element of index `i` visits it. -/
def multiLineOptions.sizeLoop (rng : Nat → List (connectOption × optValue)) :
    Nat → List plainOptions → Nat → Except Fault Nat
  | _, [], size => .ok size
  | i, m :: ms, size =>
    match m.size (rng i) with
    | .error f => .error f
    | .ok n => multiLineOptions.sizeLoop rng (i + 1) ms (size + n)

/-- The method `func (o multiLineOptions) size() int`. -/
def multiLineOptions.size (o : multiLineOptions)
    (rng : Nat → List (connectOption × optValue)) : Except Fault Nat :=
  multiLineOptions.sizeLoop rng 0 o.elems 0

/-- The method `func (o *multiLineOptions) reset(size int)`. The receiver is the
state handed in, so the test `o == nil` is false. When the capacity suffices the
slice is re-sliced, `(*o)[:size]`, which panics for a negative size and otherwise
keeps the backing array with whatever it holds; else a fresh array of `size` nil
maps is made. -/
def multiLineOptions.reset (o : multiLineOptions) (size : Int) : Except Fault multiLineOptions :=
  if size > o.cap then .ok ⟨List.replicate size.toNat plainOptions.empty, size.toNat⟩
  else if size < 0 then .error .panicBounds
  else .ok ⟨o.array, size.toNat⟩

/-- The loop of `multiLineOptions.decode` with `n` iterations left and loop
variable `i`. The map `m` is shared between the slice element and the decoder
of the block, so the element holds what the block decode stored. -/
def multiLineOptions.decodeLoop (tc : TypeCodes) :
    Nat → Nat → multiLineOptions → Decoder → Except Fault (multiLineOptions × Decoder)
  | 0, _, o, dec => .ok (o, dec)
  | n + 1, i, o, dec =>
    if i < o.len then
      match dec.Int16 with
      | .error f => .error f
      | .ok (cnt, dec) =>
        match plainOptions.decode tc plainOptions.empty dec cnt.val with
        | .error f => .error f
        | .ok (m, dec) =>
          multiLineOptions.decodeLoop tc n (i + 1) ⟨o.array.set i m, o.len⟩ dec
    else .error .panicBounds

/-- The method `func (o *multiLineOptions) decode(dec *encoding.Decoder, lineCnt int)`. -/
def multiLineOptions.decode (tc : TypeCodes) (o : multiLineOptions) (dec : Decoder)
    (lineCnt : Int) : Except Fault (multiLineOptions × Decoder) :=
  match o.reset lineCnt with
  | .error f => .error f
  | .ok o => multiLineOptions.decodeLoop tc lineCnt.toNat 0 o dec

/-- The loop of `multiLineOptions.encode`; `rng i` is the order in which the encode
of the element of index `i` visits it. -/
def multiLineOptions.encodeLoop (tc : TypeCodes) (rng : Nat → List (connectOption × optValue)) :
    Nat → List plainOptions → Encoder → Except Fault Encoder
  | _, [], enc => .ok enc
  | i, m :: ms, enc =>
    match plainOptions.encode tc (rng i) (enc.Int16 (toInt16 m.len)) with
    | .error f => .error f
    | .ok enc => multiLineOptions.encodeLoop tc rng (i + 1) ms enc

/-- The method `func (o multiLineOptions) encode(enc *encoding.Encoder)`. -/
def multiLineOptions.encode (tc : TypeCodes) (o : multiLineOptions)
    (rng : Nat → List (connectOption × optValue)) (enc : Encoder) : Except Fault Encoder :=
  multiLineOptions.encodeLoop tc rng 0 o.elems enc

/-- One sub-record of an Option Sequence on the wire: a 16-bit entry count
followed by the entries of the block. -/
structure WireLine where
  cnt : int16
  entries : List WireEntry

/-- The octets of a sub-record. -/
def WireLine.bytes (l : WireLine) : List Byte :=
  leBytes 2 (l.cnt.val % 65536).toNat ++ WireEntry.flat l.entries

/-- The octets of a run of sub-records. -/
def WireLine.flat (ls : List WireLine) : List Byte := (ls.map WireLine.bytes).flatten

/-- A sub-record whose entries are well formed and are as many as its count
says; a count that is not positive says none. -/
def WireLine.WellFormed (tc : TypeCodes) (l : WireLine) : Prop :=
  l.entries.length = l.cnt.val.toNat ∧ ∀ w ∈ l.entries, w.WellFormed tc

instance (tc : TypeCodes) (l : WireLine) : Decidable (l.WellFormed tc) := by
  unfold WireLine.WellFormed
  infer_instance

/-- The block a sub-record stands for: its entries stored into an empty block. -/
def WireLine.block (tc : TypeCodes) (l : WireLine) : plainOptions :=
  plainOptions.empty.putAll tc l.entries

/-- The backing array after the assignments `(*o)[i] = b`, `(*o)[i+1] = ...` for the
blocks `bs` in order. -/
def multiLineOptions.storeFrom : Nat → List plainOptions → List plainOptions → List plainOptions
  | _, [], arr => arr
  | i, b :: bs, arr => multiLineOptions.storeFrom (i + 1) bs (arr.set i b)

/-- A sequence of two elements over a backing array of three. -/
def sampleSeq : multiLineOptions := ⟨[sampleBlock, plainOptions.empty, sampleBlock], 2⟩

/-- Visit orders for the elements of `sampleSeq`. -/
def sampleRng : Nat → List (connectOption × optValue) :=
  fun i => if i = 0 then sampleRange else []

/-- Two sub-records, of two entries and of none. -/
def sampleLines : List WireLine :=
  [⟨⟨2, by decide⟩, [⟨1, 28, [1]⟩, ⟨5, 3, [9, 0, 0, 0]⟩]⟩, ⟨⟨0, by decide⟩, []⟩]

/-! ## Batch errors (`driver/bulk_test.go`)

Of the batched execution only the test `testBulkInsertDuplicates` is among the
sources; the executor and the error type are modelled from the spec, and the
test is embedded as it is written. -/

/-- Modelled from the spec: the outcome the server returns for one row of a
transmitted batch, "either an affected-row count (success) or a failure
descriptor" (the executor and the server are not among the sources). -/
inductive rowOutcome
  | affected (rows : Nat)
  | failed (code : Int)
  deriving DecidableEq, Repr

/-- Whether the outcome is a failure. -/
def rowOutcome.isFailed : rowOutcome → Bool
  | .affected _ => false
  | .failed _ => true

/-- Modelled from the spec: one entry of a Batch Error, a "(statement ordinal,
underlying failure)" pair. -/
structure hdbError where
  stmtNo : Nat
  code : Int
  deriving DecidableEq, Repr

/-- Modelled from the spec: the Batch Error (`driver.Error`, not among the
sources), "an ordered sequence of (statement ordinal, underlying failure) pairs"
with "random access by a movable cursor index". -/
structure Error where
  errors : List hdbError
  idx : Nat
  deriving DecidableEq, Repr

/-- Modelled from the spec: `count()`, the number of failed entries (`NumError` in the test). -/
def Error.NumError (e : Error) : Nat := e.errors.length

/-- Modelled from the spec: `select(i)`, moves the cursor to entry `i` (`SetIdx` in the test). -/
def Error.SetIdx (e : Error) (idx : Nat) : Error := ⟨e.errors, idx⟩

/-- Modelled from the spec: `ordinal()`, the statement number of the selected entry
(`StmtNo` in the test); an index out of range is a caller error and gives none. -/
def Error.StmtNo (e : Error) : Option Nat := (e.errors[e.idx]?).map hdbError.stmtNo

/-- Modelled from the spec: the failures of one transmitted batch, "collected, in
original per-row order", each with the number of its row within the batch;
`no` is the number of the first of the rows still to go. Successes are left
out. -/
def collectErrors : Nat → List rowOutcome → List hdbError
  | _, [] => []
  | no, .affected _ :: rest => collectErrors (no + 1) rest
  | no, .failed code :: rest => ⟨no, code⟩ :: collectErrors (no + 1) rest

/-- Modelled from the spec: the error result of a flush (the Batch Executor is not
among the sources): none when no row of the transmitted batch failed, else the
Batch Error of this batch alone, "whose ordinals are assigned as the 1-based
position of the row within this specific transmitted batch", its cursor on the
first entry. -/
def flushError (outcomes : List rowOutcome) : Option Error :=
  match collectErrors 1 outcomes with
  | [] => none
  | e :: es => some ⟨e :: es, 0⟩

/-- Modelled from the spec: the server side of the test's table
`(k integer primary key, v integer)`: a row whose key is in the table already
fails on the uniqueness constraint, any other row is inserted. `keys` are the keys
in the table; the result is the outcome per row and the keys afterwards. -/
def insertRows : List Int → List (Int × Int) → List rowOutcome × List Int
  | keys, [] => ([], keys)
  | keys, (k, _) :: rest =>
    if k ∈ keys then
      let r := insertRows keys rest
      (.failed 301 :: r.1, r.2)
    else
      let r := insertRows (k :: keys) rest
      (.affected 1 :: r.1, r.2)

/-- The assertions of `testBulkInsertDuplicates` on the error of its second flush:
`NumError()` is 3 and, with `stmtNo := []int{1, 2, 3}`, after `SetIdx(i)` the
statement number `StmtNo()` is `stmtNo[i]` for every `i` below `NumError()`. -/
def testBulkInsertDuplicates.check (dbError : Error) : Bool :=
  dbError.NumError == 3 &&
    (List.range dbError.NumError).all
      (fun i => (dbError.SetIdx i).StmtNo == ([1, 2, 3] : List Nat)[i]?)

/-- The rows `(i, i)` for `i` from `lo` up to but not including `hi`, the
arguments of the test's `stmt.Exec(i, i)` loops. -/
def testRows (lo hi : Nat) : List (Int × Int) :=
  (List.range (hi - lo)).map (fun j => (((lo + j : Nat) : Int), ((lo + j : Nat) : Int)))

/-- The test `testBulkInsertDuplicates` run against the flush as the spec describes
it: true when no `t.Fatal` is reached. Rows 1, 2, 3 are inserted into the empty
table and flushed, which must not fail; rows 0 to 4 are inserted and flushed,
which must fail with an error that passes the assertions. -/
def testBulkInsertDuplicates : Bool :=
  let r1 := insertRows [] (testRows 1 4)
  match flushError r1.1 with
  | some _ => false
  | none =>
    let r2 := insertRows r1.2 (testRows 0 5)
    match flushError r2.1 with
    | none => false
    | some dbError => testBulkInsertDuplicates.check dbError

/-- A text of 32768 octets, one more than an `int16` length can announce. -/
def longText : List Byte := List.replicate 32768 0

/-- A text of 65536 octets, one more than 16 bits can count. -/
def hugeText : List Byte := List.replicate 65536 0

/-- A run of four wire entries in which the key 1 occurs twice. -/
def sampleWire : List WireEntry :=
  [⟨1, 28, [1]⟩, ⟨5, 3, [9, 0, 0, 0]⟩, ⟨1, 3, [5, 0, 0, 0]⟩, ⟨7, 28, [0]⟩]

/-- The type tag that names the variant of a value: `tcBoolean`, `tcInteger`,
`tcBigint`, `tcDouble`, `tcString`, `tcBstring` for boolean, int32, int64, float64,
text, binary; a value of a type outside the six has none. -/
def optValue.variantTag (tc : TypeCodes) : optValue → Option Byte
  | .optBooleanType _ => some tc.tcBoolean
  | .optIntType _ => some tc.tcInteger
  | .optBigintType _ => some tc.tcBigint
  | .optDoubleType _ => some tc.tcDouble
  | .optStringType _ => some tc.tcString
  | .optBinaryStringType _ => some tc.tcBstring
  | .other => none

/-- The payload of a value on the wire: one octet for a boolean, the four or
eight octets of an integer, the eight octets of the bit pattern of a float64,
and for text and binary the length in 16 bits followed by the octets. A value
of a type outside the six has no payload. -/
def optValue.payloadBytes : optValue → List Byte
  | .optBooleanType v => [if v then 1 else 0]
  | .optIntType v => leBytes 4 (v.val % 4294967296).toNat
  | .optBigintType v => leBytes 8 (v.val % 18446744073709551616).toNat
  | .optDoubleType v => leBytes 8 v.val
  | .optStringType v => leBytes 2 v.length ++ v
  | .optBinaryStringType v => leBytes 2 v.length ++ v
  | .other => []

/-! ## Properties -/

theorem leBytes_length (n x : Nat) : (leBytes n x).length = n := by
  induction n generalizing x with
  | zero => rfl
  | succ n ih => simp [leBytes, ih]

theorem byteOf_val (b : Byte) : byteOf b.val = b := by
  apply Fin.ext
  simp [byteOf, Nat.mod_eq_of_lt b.isLt]

theorem Encoder.Int8_eq (e : Encoder) (k : connectOption) :
    e.Int8 k = ⟨e.wr ++ [keyByte k]⟩ := by
  simp [Encoder.Int8, keyByte, leBytes]

theorem keyByte_toInt8 (b : Byte) : keyByte (toInt8 b.val) = b := by
  have hb := b.isLt
  have h : ((toInt8 (b.val : Int)).val % 256).toNat = b.val := by
    simp only [toInt8]
    omega
  simp [keyByte, h, byteOf_val]

theorem Encoder.Int16_toInt16 (e : Encoder) (n : Nat) :
    e.Int16 (toInt16 n) = ⟨e.wr ++ leBytes 2 n⟩ := by
  have h : ((toInt16 (n : Int)).val % 65536).toNat = n % 65536 := by
    simp only [toInt16]
    omega
  have h2 : leBytes 2 (n % 65536) = leBytes 2 n := by
    have e1 : byteOf (n % 65536) = byteOf n := by
      apply Fin.ext
      show n % 65536 % 256 = n % 256
      omega
    have e2 : byteOf (n % 65536 / 256) = byteOf (n / 256) := by
      apply Fin.ext
      show n % 65536 / 256 % 256 = n / 256 % 256
      omega
    simp only [leBytes, e1, e2]
  simp [Encoder.Int16, h, h2]

theorem plainOptions.encode_eq (tc : TypeCodes) (trav : List (connectOption × optValue))
    (hv : ∀ e ∈ trav, e.2 ≠ .other) (enc : Encoder) :
    plainOptions.encode tc trav enc = .ok ⟨enc.wr ++ plainOptions.wireBytes tc trav⟩ := by
  induction trav generalizing enc with
  | nil => simp [plainOptions.encode, plainOptions.wireBytes]
  | cons e rest ih =>
    obtain ⟨k, v⟩ := e
    have hrest : ∀ e ∈ rest, e.2 ≠ .other := fun e he => hv e (List.mem_cons_of_mem _ he)
    have hne : v ≠ .other := hv (k, v) (List.mem_cons_self _ _)
    have hw : plainOptions.wireBytes tc ((k, v) :: rest)
        = plainOptions.entryBytes tc (k, v) ++ plainOptions.wireBytes tc rest := by
      simp [plainOptions.wireBytes]
    cases v with
    | other => exact absurd rfl hne
    | optBooleanType b =>
      simp [plainOptions.encode, ih hrest, Encoder.Int8_eq, keyByte_toInt8, hw, plainOptions.entryBytes,
        Encoder.Bool]
    | optIntType i =>
      simp [plainOptions.encode, ih hrest, Encoder.Int8_eq, keyByte_toInt8, hw, plainOptions.entryBytes,
        Encoder.Int32]
    | optBigintType i =>
      simp [plainOptions.encode, ih hrest, Encoder.Int8_eq, keyByte_toInt8, hw, plainOptions.entryBytes,
        Encoder.Int64]
    | optDoubleType f =>
      simp [plainOptions.encode, ih hrest, Encoder.Int8_eq, keyByte_toInt8, hw, plainOptions.entryBytes,
        Encoder.Float64]
    | optStringType s =>
      simp [plainOptions.encode, ih hrest, Encoder.Int8_eq, keyByte_toInt8, Encoder.Int16_toInt16, hw,
        plainOptions.entryBytes, Encoder.Bytes]
    | optBinaryStringType s =>
      simp [plainOptions.encode, ih hrest, Encoder.Int8_eq, keyByte_toInt8, Encoder.Int16_toInt16, hw,
        plainOptions.entryBytes, Encoder.Bytes]

/-! ### Visit orders of a map -/

theorem connectOption.mem_all (k : connectOption) : k ∈ connectOption.all := by
  obtain ⟨i, hi⟩ := k
  simp only [connectOption.all, List.mem_map, List.mem_finRange, true_and]
  refine ⟨⟨(i + 128).toNat, by omega⟩, ?_⟩
  apply Subtype.ext
  simp only
  omega

theorem connectOption.all_nodup : connectOption.all.Nodup := by
  refine List.Nodup.map ?_ (List.nodup_finRange 256)
  intro a b hab
  have h := congrArg Subtype.val hab
  simp only at h
  apply Fin.ext
  omega

theorem plainOptions.mem_entries (o : plainOptions) (k : connectOption) (v : optValue) :
    (k, v) ∈ o.entries ↔ o k = some v := by
  simp only [plainOptions.entries, List.mem_filterMap]
  constructor
  · rintro ⟨a, _, ha⟩
    cases hoa : o a with
    | none => simp [hoa] at ha
    | some w =>
      simp only [hoa, Option.map_some', Option.some.injEq, Prod.mk.injEq] at ha
      rw [← ha.1, ← ha.2]
      exact hoa
  · intro h
    exact ⟨k, connectOption.mem_all k, by simp [h]⟩

theorem plainOptions.entries_keys_nodup (o : plainOptions) :
    (o.entries.map Prod.fst).Nodup := by
  have h : o.entries.map Prod.fst = connectOption.all.filter (fun k => (o k).isSome) := by
    unfold plainOptions.entries
    induction connectOption.all with
    | nil => rfl
    | cons a l ih =>
      cases ha : o a with
      | none => simp [List.filterMap_cons, List.filter_cons, ha, ih]
      | some v => simp [List.filterMap_cons, List.filter_cons, ha, ih]
  rw [h]
  exact connectOption.all_nodup.filter _

theorem plainOptions.isRange_entries (o : plainOptions) : o.IsRange o.entries :=
  ⟨o.entries_keys_nodup, o.mem_entries⟩

theorem plainOptions.IsRange.perm {o : plainOptions} {trav : List (connectOption × optValue)}
    (h : o.IsRange trav) : trav.Perm o.entries := by
  refine (List.perm_ext_iff_of_nodup (List.Nodup.of_map _ h.1)
    (List.Nodup.of_map _ o.entries_keys_nodup)).2 ?_
  rintro ⟨k, v⟩
  rw [h.2 k v, o.mem_entries k v]

theorem plainOptions.IsRange.length_eq {o : plainOptions}
    {trav : List (connectOption × optValue)} (h : o.IsRange trav) : trav.length = o.len :=
  h.perm.length_eq

theorem plainOptions.IsRange.ne_other {o : plainOptions}
    {trav : List (connectOption × optValue)} (h : o.IsRange trav)
    (hv : ∀ k, o k ≠ some .other) : ∀ e ∈ trav, e.2 ≠ .other := by
  rintro ⟨k, v⟩ he hk
  simp only at hk
  subst hk
  exact hv k ((h.2 k _).1 he)

/-! ### Size -/

theorem plainOptions.sizeLoop_eq (trav : List (connectOption × optValue))
    (hv : ∀ e ∈ trav, e.2 ≠ .other) (size : Nat) :
    plainOptions.sizeLoop trav size
      = .ok (size + (trav.map (fun e => e.2.payloadWidth)).sum) := by
  induction trav generalizing size with
  | nil => simp [plainOptions.sizeLoop]
  | cons e rest ih =>
    obtain ⟨k, v⟩ := e
    have hrest : ∀ e ∈ rest, e.2 ≠ .other := fun e he => hv e (List.mem_cons_of_mem _ he)
    have hne : v ≠ .other := hv (k, v) (List.mem_cons_self _ _)
    cases v with
    | other => exact absurd rfl hne
    | optBooleanType b =>
      simp [plainOptions.sizeLoop, ih hrest, optValue.payloadWidth, Nat.add_assoc]
    | optIntType i =>
      simp [plainOptions.sizeLoop, ih hrest, optValue.payloadWidth, Nat.add_assoc]
    | optBigintType i =>
      simp [plainOptions.sizeLoop, ih hrest, optValue.payloadWidth, Nat.add_assoc]
    | optDoubleType f =>
      simp [plainOptions.sizeLoop, ih hrest, optValue.payloadWidth, Nat.add_assoc]
    | optStringType s =>
      simp [plainOptions.sizeLoop, ih hrest, optValue.payloadWidth, Nat.add_assoc]
    | optBinaryStringType s =>
      simp [plainOptions.sizeLoop, ih hrest, optValue.payloadWidth, Nat.add_assoc]

theorem plainOptions.sum_entryWireSize (l : List (connectOption × optValue)) :
    (l.map (fun e => e.2.entryWireSize)).sum
      = 2 * l.length + (l.map (fun e => e.2.payloadWidth)).sum := by
  induction l with
  | nil => rfl
  | cons e rest ih =>
    simp only [List.map_cons, List.sum_cons, List.length_cons, ih]
    simp only [optValue.entryWireSize]
    omega

theorem plainOptions.entryBytes_length (tc : TypeCodes) (e : connectOption × optValue)
    (hv : e.2 ≠ .other) : (plainOptions.entryBytes tc e).length = e.2.entryWireSize := by
  obtain ⟨k, v⟩ := e
  cases v with
  | other => exact absurd rfl hv
  | optBooleanType b => simp [plainOptions.entryBytes, optValue.entryWireSize,
      optValue.payloadWidth]
  | optIntType i => simp [plainOptions.entryBytes, optValue.entryWireSize,
      optValue.payloadWidth, leBytes_length]
  | optBigintType i => simp [plainOptions.entryBytes, optValue.entryWireSize,
      optValue.payloadWidth, leBytes_length]
  | optDoubleType f => simp [plainOptions.entryBytes, optValue.entryWireSize,
      optValue.payloadWidth, leBytes_length]
  | optStringType s =>
    simp only [plainOptions.entryBytes, optValue.entryWireSize, optValue.payloadWidth,
      List.length_cons, List.length_append, leBytes_length]
    omega
  | optBinaryStringType s =>
    simp only [plainOptions.entryBytes, optValue.entryWireSize, optValue.payloadWidth,
      List.length_cons, List.length_append, leBytes_length]
    omega

theorem plainOptions.wireBytes_length (tc : TypeCodes)
    (trav : List (connectOption × optValue)) (hv : ∀ e ∈ trav, e.2 ≠ .other) :
    (plainOptions.wireBytes tc trav).length = (trav.map (fun e => e.2.entryWireSize)).sum := by
  induction trav with
  | nil => rfl
  | cons e rest ih =>
    have hrest : ∀ e ∈ rest, e.2 ≠ .other := fun e he => hv e (List.mem_cons_of_mem _ he)
    have he := plainOptions.entryBytes_length tc e (hv e (List.mem_cons_self _ _))
    have ih2 := ih hrest
    simp only [plainOptions.wireBytes] at ih2 ⊢
    simp only [List.map_cons, List.flatten_cons, List.length_append, List.sum_cons, he, ih2]

theorem plainOptions.size_eq (o : plainOptions) (trav : List (connectOption × optValue))
    (h : o.IsRange trav) (hv : ∀ k, o k ≠ some .other) : o.size trav = .ok o.specSize := by
  have hp := h.perm
  have hsum : (trav.map (fun e => e.2.payloadWidth)).sum
      = (o.entries.map (fun e => e.2.payloadWidth)).sum := (hp.map _).sum_eq
  rw [plainOptions.size, plainOptions.sizeLoop_eq trav (h.ne_other hv), hsum,
    plainOptions.specSize, plainOptions.sum_entryWireSize]
  rfl

theorem sampleBlock_isRange : sampleBlock.IsRange sampleRange := by
  refine ⟨by decide, ?_⟩
  intro k v
  simp only [sampleRange, sampleBlock, plainOptions.set, plainOptions.empty, List.mem_cons,
    Prod.mk.injEq, List.mem_singleton, List.not_mem_nil, or_false]
  constructor
  · rintro (⟨rfl, rfl⟩ | ⟨rfl, rfl⟩ | ⟨rfl, rfl⟩) <;> decide
  · intro h
    split_ifs at h with h1 h2 h3
    · exact Or.inl ⟨h1, (Option.some.inj h).symm⟩
    · exact Or.inr (Or.inr ⟨h2, (Option.some.inj h).symm⟩)
    · exact Or.inr (Or.inl ⟨h3, (Option.some.inj h).symm⟩)

theorem sampleBlock_isRange2 : sampleBlock.IsRange sampleRange2 := by
  refine ⟨by decide, ?_⟩
  intro k v
  rw [← sampleBlock_isRange.2 k v]
  simp only [sampleRange, sampleRange2, List.mem_cons, List.mem_singleton, List.not_mem_nil,
    or_false]
  tauto

theorem sampleBlock_ne_other : ∀ k, sampleBlock k ≠ some .other := by
  intro k h
  have hm := (sampleBlock_isRange.2 k .other).2 h
  simp [sampleRange] at hm

/-- C1: for a block whose values are all of the six option types, whatever the
order `travS` in which size visits it and the order `travE` in which encode visits
it, size returns a number `n`, encode succeeds, leaves what was written before
untouched and appends exactly `n` octets. -/
theorem plainOptions.encode_length_eq_size (tc : TypeCodes) (o : plainOptions)
    (travS travE : List (connectOption × optValue)) (hS : o.IsRange travS)
    (hE : o.IsRange travE) (hv : ∀ k, o k ≠ some .other) (enc : Encoder) :
    ∃ n out, o.size travS = .ok n ∧
      plainOptions.encode tc travE enc = .ok ⟨enc.wr ++ out⟩ ∧ out.length = n := by
  refine ⟨o.specSize, plainOptions.wireBytes tc travE, o.size_eq travS hS hv,
    plainOptions.encode_eq tc travE (hE.ne_other hv) enc, ?_⟩
  rw [plainOptions.wireBytes_length tc travE (hE.ne_other hv), plainOptions.specSize]
  exact ((hE.perm).map _).sum_eq

theorem plainOptions.encode_length_eq_size_witness :
    sampleBlock.IsRange sampleRange ∧ sampleBlock.IsRange sampleRange2 ∧
      ∃ n out, sampleBlock.size sampleRange = .ok n ∧
        plainOptions.encode hdbTypeCodes sampleRange2 ⟨[9]⟩ = .ok ⟨[9] ++ out⟩ ∧
        out.length = n :=
  ⟨sampleBlock_isRange, sampleBlock_isRange2,
    plainOptions.encode_length_eq_size hdbTypeCodes sampleBlock sampleRange sampleRange2
      sampleBlock_isRange sampleBlock_isRange2 sampleBlock_ne_other ⟨[9]⟩⟩

/-- C5: for a block whose values are all of the six option types, size returns the
sum over the entries of 1 key byte + 1 type-tag byte + payload width (1, 4, 8, 8,
2+N), and every visit order gives the same result. -/
theorem plainOptions.size_eq_specSize (o : plainOptions)
    (trav : List (connectOption × optValue)) (h : o.IsRange trav)
    (hv : ∀ k, o k ≠ some .other) :
    o.size trav = .ok o.specSize ∧
      o.size trav = .ok ((trav.map (fun e => 1 + 1 + e.2.payloadWidth)).sum) ∧
      ∀ trav2, o.IsRange trav2 → o.size trav2 = o.size trav := by
  refine ⟨o.size_eq trav h hv, ?_, fun trav2 h2 => ?_⟩
  · rw [o.size_eq trav h hv, plainOptions.specSize]
    exact congrArg Except.ok ((h.perm).map _).sum_eq.symm
  · rw [o.size_eq trav h hv, o.size_eq trav2 h2 hv]

theorem plainOptions.size_eq_specSize_witness :
    sampleBlock.IsRange sampleRange ∧ sampleBlock.size sampleRange = .ok 15 ∧
      sampleBlock.size sampleRange2 = sampleBlock.size sampleRange := by
  have h := plainOptions.size_eq_specSize sampleBlock sampleRange sampleBlock_isRange
    sampleBlock_ne_other
  refine ⟨sampleBlock_isRange, ?_, h.2.2 sampleRange2 sampleBlock_isRange2⟩
  rw [h.2.1]
  rfl

/-! ### Reads of the cursor -/

theorem leNat_leBytes (n x : Nat) : leNat (leBytes n x) = x % 256 ^ n := by
  induction n generalizing x with
  | zero => simp [leBytes, leNat, Nat.mod_one]
  | succ n ih =>
    simp only [leBytes, leNat, ih, byteOf]
    rw [pow_succ', Nat.mod_mul]

theorem decoder_read_append (p rest : List Byte) (c n : Nat) (h : p.length = n) :
    Decoder.read ⟨p ++ rest, c⟩ n = .ok (p, ⟨rest, c + n⟩) := by
  subst h
  simp [Decoder.read]

theorem decoder_Int8_cons (b : Byte) (rest : List Byte) (c : Nat) :
    Decoder.Int8 ⟨b :: rest, c⟩ = .ok (toInt8 b.val, ⟨rest, c + 1⟩) := by
  have h := decoder_read_append [b] rest c 1 rfl
  simp only [List.singleton_append] at h
  simp [Decoder.Int8, h, leNat]

theorem decoder_Byte_cons (b : Byte) (rest : List Byte) (c : Nat) :
    Decoder.Byte ⟨b :: rest, c⟩ = .ok (b, ⟨rest, c + 1⟩) := by
  have h := decoder_read_append [b] rest c 1 rfl
  simp only [List.singleton_append] at h
  simp [Decoder.Byte, h, leNat, byteOf_val]

theorem decoder_Bool_append (p rest : List Byte) (c : Nat) (h : p.length = 1) :
    Decoder.Bool ⟨p ++ rest, c⟩ = .ok (decide (leNat p ≠ 0), ⟨rest, c + 1⟩) := by
  simp [Decoder.Bool, decoder_read_append p rest c 1 h]

theorem decoder_Int16_append (p rest : List Byte) (c : Nat) (h : p.length = 2) :
    Decoder.Int16 ⟨p ++ rest, c⟩ = .ok (toInt16 (leNat p), ⟨rest, c + 2⟩) := by
  simp [Decoder.Int16, decoder_read_append p rest c 2 h]

theorem decoder_Int32_append (p rest : List Byte) (c : Nat) (h : p.length = 4) :
    Decoder.Int32 ⟨p ++ rest, c⟩ = .ok (toInt32 (leNat p), ⟨rest, c + 4⟩) := by
  simp [Decoder.Int32, decoder_read_append p rest c 4 h]

theorem decoder_Int64_append (p rest : List Byte) (c : Nat) (h : p.length = 8) :
    Decoder.Int64 ⟨p ++ rest, c⟩ = .ok (toInt64 (leNat p), ⟨rest, c + 8⟩) := by
  simp [Decoder.Int64, decoder_read_append p rest c 8 h]

theorem decoder_Float64_append (p rest : List Byte) (c : Nat) (h : p.length = 8) :
    Decoder.Float64 ⟨p ++ rest, c⟩
      = .ok (⟨leNat p % 18446744073709551616, Nat.mod_lt _ (by decide)⟩, ⟨rest, c + 8⟩) := by
  simp [Decoder.Float64, decoder_read_append p rest c 8 h]

/-- Reading the length-prefixed octets of a text or binary payload. -/
theorem decoder_lenBytes (p rest : List Byte) (c : Nat) (h1 : leNat (p.take 2) < 32768)
    (h2 : p.length = 2 + leNat (p.take 2)) :
    ∃ size : int16, Decoder.Int16 ⟨p ++ rest, c⟩ = .ok (size, ⟨p.drop 2 ++ rest, c + 2⟩) ∧
      ¬ size.val < 0 ∧
      Decoder.Bytes ⟨p.drop 2 ++ rest, c + 2⟩ size.val.toNat
        = .ok (p.drop 2, ⟨rest, c + p.length⟩) := by
  have hsplit : p ++ rest = p.take 2 ++ (p.drop 2 ++ rest) := by
    rw [← List.append_assoc, List.take_append_drop]
  have htake : (p.take 2).length = 2 := by
    rw [List.length_take]
    omega
  have hval : (toInt16 (leNat (p.take 2) : Nat)).val = (leNat (p.take 2) : Int) := by
    simp only [toInt16]
    omega
  refine ⟨toInt16 (leNat (p.take 2)), ?_, ?_, ?_⟩
  · rw [hsplit]
    exact decoder_Int16_append _ _ c htake
  · rw [hval]
    omega
  · have hdrop : (p.drop 2).length = (toInt16 (leNat (p.take 2) : Nat)).val.toNat := by
      rw [hval, List.length_drop]
      omega
    rw [Decoder.Bytes, decoder_read_append _ _ _ _ hdrop, ← hdrop, List.length_drop]
    have : c + 2 + (p.length - 2) = c + p.length := by omega
    rw [this]

/-! ### Decoding wire entries -/

theorem plainOptions.decodeStep_wire (tc : TypeCodes) (o : plainOptions) (w : WireEntry)
    (v : optValue) (rest : List Byte) (c : Nat) (hv : w.value tc = some v) :
    plainOptions.decodeStep tc o ⟨w.bytes ++ rest, c⟩
      = .ok (o.set w.optKey v, ⟨rest, c + w.bytes.length⟩) := by
  obtain ⟨key, tag, payload⟩ := w
  have hlen : c + 1 + 1 + payload.length = c + (payload.length + 1 + 1) := by omega
  simp only [WireEntry.bytes, List.cons_append, plainOptions.decodeStep, decoder_Int8_cons,
    decoder_Byte_cons, WireEntry.optKey, List.length_cons]
  simp only [WireEntry.value] at hv
  split_ifs at hv with t1 p1 t2 p2 t3 p3 t4 p4 t5 p5 t6 p6
  · rw [if_pos t1, decoder_Bool_append payload rest _ p1, ← Option.some.inj hv, p1]
  · rw [if_neg t1, if_pos t2, decoder_Int32_append payload rest _ p2, ← Option.some.inj hv, p2]
  · rw [if_neg t1, if_neg t2, if_pos t3, decoder_Int64_append payload rest _ p3,
      ← Option.some.inj hv, p3]
  · rw [if_neg t1, if_neg t2, if_neg t3, if_pos t4, decoder_Float64_append payload rest _ p4,
      ← Option.some.inj hv, p4]
  · obtain ⟨size, hs1, hs2, hs3⟩ := decoder_lenBytes payload rest (c + 1 + 1) p5.1 p5.2
    rw [if_neg t1, if_neg t2, if_neg t3, if_neg t4, if_pos t5, hs1]
    simp only [if_neg hs2, hs3]
    rw [← Option.some.inj hv, hlen]
  · obtain ⟨size, hs1, hs2, hs3⟩ := decoder_lenBytes payload rest (c + 1 + 1) p6.1 p6.2
    rw [if_neg t1, if_neg t2, if_neg t3, if_neg t4, if_neg t5, if_pos t6, hs1]
    simp only [if_neg hs2, hs3]
    rw [← Option.some.inj hv, hlen]

theorem WireEntry.flat_cons (w : WireEntry) (ws : List WireEntry) :
    WireEntry.flat (w :: ws) = w.bytes ++ WireEntry.flat ws := by
  simp [WireEntry.flat]

theorem WireEntry.flat_append (ws vs : List WireEntry) :
    WireEntry.flat (ws ++ vs) = WireEntry.flat ws ++ WireEntry.flat vs := by
  simp [WireEntry.flat]

theorem plainOptions.put_of_value (tc : TypeCodes) (o : plainOptions) (w : WireEntry)
    (v : optValue) (hv : w.value tc = some v) : o.put tc w = o.set w.optKey v := by
  simp [plainOptions.put, hv]

/-- Decoding a run of well-formed entries stores them first to last and goes on
with what follows the run. -/
theorem plainOptions.decodeLoop_wire_add (tc : TypeCodes) (ws : List WireEntry)
    (hws : ∀ w ∈ ws, w.WellFormed tc) (m : Nat) (o : plainOptions) (rest : List Byte)
    (c : Nat) :
    plainOptions.decodeLoop tc (ws.length + m) o ⟨WireEntry.flat ws ++ rest, c⟩
      = plainOptions.decodeLoop tc m (o.putAll tc ws)
          ⟨rest, c + (WireEntry.flat ws).length⟩ := by
  induction ws generalizing o c with
  | nil => simp [WireEntry.flat, plainOptions.putAll]
  | cons w ws ih =>
    have hw : w.WellFormed tc := hws w (List.mem_cons_self _ _)
    have hrest : ∀ x ∈ ws, x.WellFormed tc := fun x hx => hws x (List.mem_cons_of_mem _ hx)
    obtain ⟨v, hv⟩ := Option.ne_none_iff_exists'.1 hw
    have hstep := plainOptions.decodeStep_wire tc o w v (WireEntry.flat ws ++ rest) c hv
    have hl : (w :: ws).length + m = (ws.length + m) + 1 := by
      simp only [List.length_cons]
      omega
    rw [hl, plainOptions.decodeLoop, WireEntry.flat_cons, List.append_assoc, hstep]
    simp only
    rw [ih hrest]
    simp only [plainOptions.putAll, List.foldl_cons, plainOptions.put_of_value tc o w v hv,
      List.length_append, Nat.add_assoc]

theorem plainOptions.decodeLoop_wire (tc : TypeCodes) (ws : List WireEntry)
    (hws : ∀ w ∈ ws, w.WellFormed tc) (o : plainOptions) (rest : List Byte) (c : Nat) :
    plainOptions.decodeLoop tc ws.length o ⟨WireEntry.flat ws ++ rest, c⟩
      = .ok (o.putAll tc ws, ⟨rest, c + (WireEntry.flat ws).length⟩) := by
  have h := plainOptions.decodeLoop_wire_add tc ws hws 0 o rest c
  simpa [plainOptions.decodeLoop] using h

theorem plainOptions.decodeStep_unknown (tc : TypeCodes) (o : plainOptions) (k t : Byte)
    (rest : List Byte) (c : Nat) (ht : ¬ tc.known t) :
    plainOptions.decodeStep tc o ⟨k :: t :: rest, c⟩ = .error (.fatalTypeCode t) := by
  simp only [TypeCodes.known, List.mem_cons, List.mem_singleton, List.not_mem_nil, or_false,
    not_or] at ht
  obtain ⟨h1, h2, h3, h4, h5, h6⟩ := ht
  simp only [plainOptions.decodeStep, decoder_Int8_cons, decoder_Byte_cons]
  rw [if_neg h1, if_neg h2, if_neg h3, if_neg h4, if_neg h5, if_neg h6]

theorem decoder_read_error (d : Decoder) (n : Nat) (f : Fault)
    (h : d.read n = .error f) : f = .truncated := by
  unfold Decoder.read at h
  split_ifs at h
  exact (Except.error.inj h).symm

theorem decoder_Int8_ne_fatal (d : Decoder) (t : Byte) :
    d.Int8 ≠ .error (.fatalTypeCode t) := by
  unfold Decoder.Int8
  split
  · rename_i hd
    intro h
    rw [Except.error.inj h] at hd
    exact Fault.noConfusion (decoder_read_error _ _ _ hd)
  · exact Except.noConfusion

theorem decoder_Byte_ne_fatal (d : Decoder) (t : Byte) :
    d.Byte ≠ .error (.fatalTypeCode t) := by
  unfold Decoder.Byte
  split
  · rename_i hd
    intro h
    rw [Except.error.inj h] at hd
    exact Fault.noConfusion (decoder_read_error _ _ _ hd)
  · exact Except.noConfusion

theorem decoder_Bool_ne_fatal (d : Decoder) (t : Byte) :
    d.Bool ≠ .error (.fatalTypeCode t) := by
  unfold Decoder.Bool
  split
  · rename_i hd
    intro h
    rw [Except.error.inj h] at hd
    exact Fault.noConfusion (decoder_read_error _ _ _ hd)
  · exact Except.noConfusion

theorem decoder_Int16_ne_fatal (d : Decoder) (t : Byte) :
    d.Int16 ≠ .error (.fatalTypeCode t) := by
  unfold Decoder.Int16
  split
  · rename_i hd
    intro h
    rw [Except.error.inj h] at hd
    exact Fault.noConfusion (decoder_read_error _ _ _ hd)
  · exact Except.noConfusion

theorem decoder_Int32_ne_fatal (d : Decoder) (t : Byte) :
    d.Int32 ≠ .error (.fatalTypeCode t) := by
  unfold Decoder.Int32
  split
  · rename_i hd
    intro h
    rw [Except.error.inj h] at hd
    exact Fault.noConfusion (decoder_read_error _ _ _ hd)
  · exact Except.noConfusion

theorem decoder_Int64_ne_fatal (d : Decoder) (t : Byte) :
    d.Int64 ≠ .error (.fatalTypeCode t) := by
  unfold Decoder.Int64
  split
  · rename_i hd
    intro h
    rw [Except.error.inj h] at hd
    exact Fault.noConfusion (decoder_read_error _ _ _ hd)
  · exact Except.noConfusion

theorem decoder_Float64_ne_fatal (d : Decoder) (t : Byte) :
    d.Float64 ≠ .error (.fatalTypeCode t) := by
  unfold Decoder.Float64
  split
  · rename_i hd
    intro h
    rw [Except.error.inj h] at hd
    exact Fault.noConfusion (decoder_read_error _ _ _ hd)
  · exact Except.noConfusion

theorem decoder_Bytes_ne_fatal (d : Decoder) (n : Nat) (t : Byte) :
    d.Bytes n ≠ .error (.fatalTypeCode t) := by
  intro h
  exact Fault.noConfusion (decoder_read_error _ _ _ h)

/-- The fatal branch of decode is taken on an unknown type code only. -/
theorem plainOptions.decodeStep_fatal (tc : TypeCodes) (o : plainOptions) (dec : Decoder)
    (t : Byte) (h : plainOptions.decodeStep tc o dec = .error (.fatalTypeCode t)) :
    ¬ tc.known t := by
  intro hk
  simp only [TypeCodes.known, List.mem_cons, List.mem_singleton, List.not_mem_nil,
    or_false] at hk
  unfold plainOptions.decodeStep at h
  repeat' split at h
  all_goals
    simp_all [decoder_Int8_ne_fatal, decoder_Byte_ne_fatal, decoder_Bool_ne_fatal,
      decoder_Int16_ne_fatal, decoder_Int32_ne_fatal, decoder_Int64_ne_fatal,
      decoder_Float64_ne_fatal, decoder_Bytes_ne_fatal]

theorem plainOptions.decodeLoop_fatal (tc : TypeCodes) (n : Nat) (o : plainOptions)
    (dec : Decoder) (t : Byte)
    (h : plainOptions.decodeLoop tc n o dec = .error (.fatalTypeCode t)) : ¬ tc.known t := by
  induction n generalizing o dec with
  | zero => exact Except.noConfusion h
  | succ n ih =>
    unfold plainOptions.decodeLoop at h
    split at h
    · rename_i f hf
      rw [Except.error.inj h] at hf
      exact plainOptions.decodeStep_fatal tc o dec t hf
    · exact ih _ _ h

theorem plainOptions.putAll_append (tc : TypeCodes) (o : plainOptions)
    (ws vs : List WireEntry) : o.putAll tc (ws ++ vs) = (o.putAll tc ws).putAll tc vs := by
  simp [plainOptions.putAll]

theorem plainOptions.putAll_apply_of_ne (tc : TypeCodes) (ws : List WireEntry)
    (k : connectOption) (h : ∀ x ∈ ws, x.optKey ≠ k) (o : plainOptions) :
    (o.putAll tc ws) k = o k := by
  induction ws generalizing o with
  | nil => rfl
  | cons w ws ih =>
    have hw : w.optKey ≠ k := h w (List.mem_cons_self _ _)
    have hrest : ∀ x ∈ ws, x.optKey ≠ k := fun x hx => h x (List.mem_cons_of_mem _ hx)
    simp only [plainOptions.putAll, List.foldl_cons]
    have ih2 := ih hrest (o.put tc w)
    simp only [plainOptions.putAll] at ih2
    rw [ih2]
    cases hv : w.value tc with
    | none => simp [plainOptions.put, hv]
    | some v => simp [plainOptions.put, hv, plainOptions.set, Ne.symm hw]

theorem plainOptions.putAll_apply_last (tc : TypeCodes) (o : plainOptions)
    (pre post : List WireEntry) (w : WireEntry) (hw : w.WellFormed tc)
    (hlast : ∀ x ∈ post, x.optKey ≠ w.optKey) :
    (o.putAll tc (pre ++ w :: post)) w.optKey = w.value tc := by
  obtain ⟨v, hv⟩ := Option.ne_none_iff_exists'.1 hw
  have hcons : pre ++ w :: post = pre ++ [w] ++ post := by simp
  rw [hcons, plainOptions.putAll_append, plainOptions.putAll_apply_of_ne tc post _ hlast,
    plainOptions.putAll_append]
  simp [plainOptions.putAll, plainOptions.put_of_value tc _ w v hv, plainOptions.set, hv]

/-- C3: when the entry that decode reads after a run of well-formed entries carries
a type tag that is none of the six codes, decode ends in the fatal branch and
yields no block, so no value for that entry; on the run of well-formed entries
alone (enough octets, known tags, non-negative lengths) decode succeeds; and
whenever decode ends in the fatal branch, the tag it reports is none of the six. -/
theorem plainOptions.decode_unknown_tag (tc : TypeCodes) (o : plainOptions)
    (ws : List WireEntry) (k t : Byte) (rest : List Byte) (c : Nat) (cnt : Int)
    (hws : ∀ w ∈ ws, w.WellFormed tc) (ht : ¬ tc.known t) (hcnt : (ws.length : Int) < cnt) :
    plainOptions.decode tc o ⟨WireEntry.flat ws ++ k :: t :: rest, c⟩ cnt
        = .error (.fatalTypeCode t) ∧
      plainOptions.decode tc o ⟨WireEntry.flat ws ++ k :: t :: rest, c⟩ ws.length
        = .ok (o.putAll tc ws, ⟨k :: t :: rest, c + (WireEntry.flat ws).length⟩) ∧
      ∀ (p : plainOptions) (dec : Decoder) (n : Int) (u : Byte),
        plainOptions.decode tc p dec n = .error (.fatalTypeCode u) → ¬ tc.known u := by
  refine ⟨?_, ?_, ?_⟩
  · obtain ⟨m, hm⟩ : ∃ m : Nat, cnt.toNat = ws.length + (m + 1) :=
      ⟨cnt.toNat - ws.length - 1, by omega⟩
    rw [plainOptions.decode, hm, plainOptions.decodeLoop_wire_add tc ws hws,
      plainOptions.decodeLoop, plainOptions.decodeStep_unknown tc _ k t rest _ ht]
  · rw [plainOptions.decode, Int.toNat_ofNat, plainOptions.decodeLoop_wire tc ws hws]
  · intro p dec n u h
    exact plainOptions.decodeLoop_fatal tc _ p dec u h

theorem plainOptions.decode_unknown_tag_witness :
    (∀ w ∈ [(⟨1, 28, [1]⟩ : WireEntry)], w.WellFormed hdbTypeCodes) ∧
      ¬ hdbTypeCodes.known 99 ∧
      plainOptions.decode hdbTypeCodes plainOptions.empty ⟨[1, 28, 1, 2, 99, 0], 0⟩ 2
        = .error (.fatalTypeCode 99) :=
  ⟨by decide, by decide,
    (plainOptions.decode_unknown_tag hdbTypeCodes plainOptions.empty [⟨1, 28, [1]⟩] 2 99 [0]
      0 2 (by decide) (by decide) (by decide)).1⟩

/-- C7: when the count entries decode reads are well formed and `w` is the last of
them with its key (the key may occur among the earlier entries any number of
times), decode succeeds, consumes the entries and leaves the block mapping the
key of `w` to the value of `w`. -/
theorem plainOptions.decode_last_write_wins (tc : TypeCodes) (o : plainOptions)
    (pre post : List WireEntry) (w : WireEntry) (rest : List Byte) (c : Nat)
    (hws : ∀ x ∈ pre ++ w :: post, x.WellFormed tc)
    (hlast : ∀ x ∈ post, x.optKey ≠ w.optKey) :
    ∃ p : plainOptions,
      plainOptions.decode tc o ⟨WireEntry.flat (pre ++ w :: post) ++ rest, c⟩
          ((pre ++ w :: post).length : Int)
        = .ok (p, ⟨rest, c + (WireEntry.flat (pre ++ w :: post)).length⟩) ∧
      p w.optKey = w.value tc ∧ w.value tc ≠ none := by
  have hw : w.WellFormed tc := hws w (by simp)
  refine ⟨o.putAll tc (pre ++ w :: post), ?_, ?_, hw⟩
  · rw [plainOptions.decode, Int.toNat_ofNat, plainOptions.decodeLoop_wire tc _ hws]
  · exact plainOptions.putAll_apply_last tc o pre post w hw hlast

theorem plainOptions.decode_last_write_wins_witness :
    (∀ x ∈ sampleWire, x.WellFormed hdbTypeCodes) ∧
      ∃ p : plainOptions,
        plainOptions.decode hdbTypeCodes plainOptions.empty
            ⟨[1, 28, 1, 5, 3, 9, 0, 0, 0, 1, 3, 5, 0, 0, 0, 7, 28, 0, 42], 0⟩ 4
          = .ok (p, ⟨[42], 18⟩) ∧
        p ⟨1, by decide⟩ = some (.optIntType ⟨5, by decide⟩) := by
  have h := plainOptions.decode_last_write_wins hdbTypeCodes plainOptions.empty
    [⟨1, 28, [1]⟩, ⟨5, 3, [9, 0, 0, 0]⟩] [⟨7, 28, [0]⟩] ⟨1, 3, [5, 0, 0, 0]⟩ [42] 0
    (by decide) (by decide)
  obtain ⟨p, h1, h2, _⟩ := h
  exact ⟨by decide, p, h1, h2⟩

/-! ### Round trip -/

theorem TypeCodes.ne (tc : TypeCodes) :
    tc.tcInteger ≠ tc.tcBoolean ∧ tc.tcBigint ≠ tc.tcBoolean ∧ tc.tcBigint ≠ tc.tcInteger ∧
      tc.tcDouble ≠ tc.tcBoolean ∧ tc.tcDouble ≠ tc.tcInteger ∧ tc.tcDouble ≠ tc.tcBigint ∧
      tc.tcString ≠ tc.tcBoolean ∧ tc.tcString ≠ tc.tcInteger ∧ tc.tcString ≠ tc.tcBigint ∧
      tc.tcString ≠ tc.tcDouble ∧ tc.tcBstring ≠ tc.tcBoolean ∧
      tc.tcBstring ≠ tc.tcInteger ∧ tc.tcBstring ≠ tc.tcBigint ∧
      tc.tcBstring ≠ tc.tcDouble ∧ tc.tcBstring ≠ tc.tcString := by
  have h := tc.distinct
  simp only [List.nodup_cons, List.mem_cons, List.mem_singleton, List.not_mem_nil, or_false,
    not_or, List.nodup_nil, and_true, not_false_eq_true] at h
  obtain ⟨⟨a1, a2, a3, a4, a5⟩, ⟨b2, b3, b4, b5⟩, ⟨c3, c4, c5⟩, ⟨d4, d5⟩, e5⟩ := h
  exact ⟨Ne.symm a1, Ne.symm a2, Ne.symm b2, Ne.symm a3, Ne.symm b3, Ne.symm c3, Ne.symm a4,
    Ne.symm b4, Ne.symm c4, Ne.symm d4, Ne.symm a5, Ne.symm b5, Ne.symm c5, Ne.symm d5,
    Ne.symm e5⟩

theorem optKey_keyByte (k : connectOption) (t : Byte) (p : List Byte) :
    (⟨keyByte k, t, p⟩ : WireEntry).optKey = k := by
  obtain ⟨i, hi⟩ := k
  apply Subtype.ext
  simp only [WireEntry.optKey, toInt8, keyByte, byteOf]
  omega

theorem toInt32_leBytes (i : int32) :
    toInt32 (leNat (leBytes 4 (i.val % 4294967296).toNat)) = i := by
  obtain ⟨i, hi⟩ := i
  apply Subtype.ext
  have h : (256 : Nat) ^ 4 = 4294967296 := by norm_num
  simp only [toInt32, leNat_leBytes, h]
  omega

theorem toInt64_leBytes (i : int64) :
    toInt64 (leNat (leBytes 8 (i.val % 18446744073709551616).toNat)) = i := by
  obtain ⟨i, hi⟩ := i
  apply Subtype.ext
  have h : (256 : Nat) ^ 8 = 18446744073709551616 := by norm_num
  simp only [toInt64, leNat_leBytes, h]
  omega

theorem float64_leBytes (f : float64) :
    (⟨leNat (leBytes 8 f.val) % 18446744073709551616, Nat.mod_lt _ (by decide)⟩ : float64)
      = f := by
  obtain ⟨n, hn⟩ := f
  apply Subtype.ext
  have h : (256 : Nat) ^ 8 = 18446744073709551616 := by norm_num
  simp only [leNat_leBytes, h]
  omega

theorem leNat_take_lenBytes (v : List Byte) :
    leNat ((leBytes 2 v.length ++ v).take 2) = v.length % 65536 := by
  have h : (256 : Nat) ^ 2 = 65536 := by norm_num
  rw [List.take_left' (leBytes_length 2 v.length), leNat_leBytes, h]

theorem drop_lenBytes (v : List Byte) : (leBytes 2 v.length ++ v).drop 2 = v :=
  List.drop_left' (leBytes_length 2 v.length)

/-- The octets encode writes for an entry are a well-formed wire entry that
stands for the key and the value of the entry. -/
theorem plainOptions.entry_wire (tc : TypeCodes) (k : connectOption) (v : optValue)
    (hf : v.Fits) :
    ∃ w : WireEntry, w.bytes = plainOptions.entryBytes tc (k, v) ∧ w.value tc = some v ∧
      w.optKey = k := by
  obtain ⟨n1, n2, n3, n4, n5, n6, n7, n8, n9, n10, n11, n12, n13, n14, n15⟩ := tc.ne
  cases v with
  | other => exact absurd hf (by simp [optValue.Fits])
  | optBooleanType b =>
    refine ⟨⟨keyByte k, tc.tcBoolean, [if b then 1 else 0]⟩, rfl, ?_, optKey_keyByte _ _ _⟩
    cases b <;> simp [WireEntry.value, leNat]
  | optIntType i =>
    refine ⟨⟨keyByte k, tc.tcInteger, leBytes 4 (i.val % 4294967296).toNat⟩, rfl, ?_,
      optKey_keyByte _ _ _⟩
    simp only [WireEntry.value, if_neg n1, leBytes_length, if_true, toInt32_leBytes]
  | optBigintType i =>
    refine ⟨⟨keyByte k, tc.tcBigint, leBytes 8 (i.val % 18446744073709551616).toNat⟩, rfl, ?_,
      optKey_keyByte _ _ _⟩
    simp only [WireEntry.value, if_neg n2, if_neg n3, leBytes_length, if_true, toInt64_leBytes]
  | optDoubleType f =>
    refine ⟨⟨keyByte k, tc.tcDouble, leBytes 8 f.val⟩, rfl, ?_, optKey_keyByte _ _ _⟩
    simp only [WireEntry.value, if_neg n4, if_neg n5, if_neg n6, leBytes_length, if_true,
      float64_leBytes]
  | optStringType s =>
    refine ⟨⟨keyByte k, tc.tcString, leBytes 2 s.length ++ s⟩, rfl, ?_, optKey_keyByte _ _ _⟩
    have hs : s.length ≤ 32767 := hf
    have hc : leNat ((leBytes 2 s.length ++ s).take 2) < 32768 ∧
        (leBytes 2 s.length ++ s).length = 2 + leNat ((leBytes 2 s.length ++ s).take 2) := by
      rw [leNat_take_lenBytes, List.length_append, leBytes_length]
      omega
    simp only [WireEntry.value, if_neg n7, if_neg n8, if_neg n9, if_neg n10, if_true, if_pos hc,
      drop_lenBytes]
  | optBinaryStringType s =>
    refine ⟨⟨keyByte k, tc.tcBstring, leBytes 2 s.length ++ s⟩, rfl, ?_, optKey_keyByte _ _ _⟩
    have hs : s.length ≤ 32767 := hf
    have hc : leNat ((leBytes 2 s.length ++ s).take 2) < 32768 ∧
        (leBytes 2 s.length ++ s).length = 2 + leNat ((leBytes 2 s.length ++ s).take 2) := by
      rw [leNat_take_lenBytes, List.length_append, leBytes_length]
      omega
    simp only [WireEntry.value, if_neg n11, if_neg n12, if_neg n13, if_neg n14, if_neg n15,
      if_true, if_pos hc, drop_lenBytes]

theorem plainOptions.exists_wire (tc : TypeCodes) (trav : List (connectOption × optValue))
    (hf : ∀ e ∈ trav, e.2.Fits) :
    ∃ ws : List WireEntry, WireEntry.flat ws = plainOptions.wireBytes tc trav ∧
      ws.length = trav.length ∧ (∀ w ∈ ws, w.WellFormed tc) ∧
      ∀ o : plainOptions, o.putAll tc ws = o.setAll trav := by
  induction trav with
  | nil => exact ⟨[], rfl, rfl, by simp, fun _ => rfl⟩
  | cons e rest ih =>
    obtain ⟨k, v⟩ := e
    obtain ⟨ws, h1, h2, h3, h4⟩ := ih (fun e he => hf e (List.mem_cons_of_mem _ he))
    obtain ⟨w, hw1, hw2, hw3⟩ :=
      plainOptions.entry_wire tc k v (hf (k, v) (List.mem_cons_self _ _))
    refine ⟨w :: ws, ?_, by simp [h2], ?_, ?_⟩
    · rw [WireEntry.flat_cons, h1, hw1]
      simp [plainOptions.wireBytes]
    · intro x hx
      rcases List.mem_cons.1 hx with rfl | hx
      · simp [WireEntry.WellFormed, hw2]
      · exact h3 x hx
    · intro o
      have h := h4 (o.set k v)
      simp only [plainOptions.putAll, plainOptions.setAll] at h ⊢
      simp only [List.foldl_cons, plainOptions.put_of_value tc o w v hw2, hw3, h]

theorem plainOptions.setAll_apply_of_ne (l : List (connectOption × optValue))
    (j : connectOption) (h : ∀ e ∈ l, e.1 ≠ j) (o : plainOptions) :
    (o.setAll l) j = o j := by
  induction l generalizing o with
  | nil => rfl
  | cons e rest ih =>
    have he : e.1 ≠ j := h e (List.mem_cons_self _ _)
    have ih2 := ih (fun x hx => h x (List.mem_cons_of_mem _ hx)) (o.set e.1 e.2)
    simp only [plainOptions.setAll, List.foldl_cons] at ih2 ⊢
    rw [ih2]
    simp [plainOptions.set, Ne.symm he]

theorem plainOptions.setAll_eq_of_isRange (o : plainOptions)
    (trav : List (connectOption × optValue)) (h : o.IsRange trav) :
    plainOptions.empty.setAll trav = o := by
  funext j
  cases hj : o j with
  | none =>
    have hne : ∀ e ∈ trav, e.1 ≠ j := by
      rintro ⟨k, v⟩ he hk
      simp only at hk
      subst hk
      have := (h.2 k v).1 he
      rw [hj] at this
      exact Option.noConfusion this
    rw [plainOptions.setAll_apply_of_ne trav j hne]
    rfl
  | some v =>
    have hmem : (j, v) ∈ trav := (h.2 j v).2 hj
    obtain ⟨a, b, hab⟩ := List.append_of_mem hmem
    have hnd := h.1
    rw [hab, List.map_append, List.map_cons] at hnd
    have hb : ∀ e ∈ b, e.1 ≠ j := by
      intro e he hk
      have h1 := (List.nodup_append.1 hnd).2.1
      have h2 := (List.nodup_cons.1 h1).1
      have hm : e.1 ∈ b.map Prod.fst := List.mem_map_of_mem Prod.fst he
      rw [hk] at hm
      exact h2 hm
    have hsplit : plainOptions.empty.setAll trav
        = ((plainOptions.empty.setAll a).set j v).setAll b := by
      rw [hab]
      simp [plainOptions.setAll]
    rw [hsplit, plainOptions.setAll_apply_of_ne b j hb]
    simp [plainOptions.set]

theorem plainOptions.isRange_singleton (k : connectOption) (v : optValue) :
    (plainOptions.empty.set k v).IsRange [(k, v)] := by
  refine ⟨by simp, ?_⟩
  intro j u
  simp only [List.mem_singleton, Prod.mk.injEq, plainOptions.set, plainOptions.empty]
  constructor
  · rintro ⟨rfl, rfl⟩
    simp
  · intro h
    split_ifs at h with hjk
    exact ⟨hjk, (Option.some.inj h).symm⟩

/-- A text or binary value of 32768 to 65535 octets is announced on the wire by
a negative `int16`, on which `make([]byte, size)` of decode panics. -/
theorem plainOptions.decodeStep_negative_len (tc : TypeCodes) (o : plainOptions) (k t : Byte)
    (n : Nat) (body : List Byte) (c : Nat) (ht : t = tc.tcString ∨ t = tc.tcBstring)
    (hn : 32768 ≤ n % 65536) :
    plainOptions.decodeStep tc o ⟨k :: t :: (leBytes 2 n ++ body), c⟩
      = .error .panicMakeslice := by
  obtain ⟨n1, n2, n3, n4, n5, n6, n7, n8, n9, n10, n11, n12, n13, n14, n15⟩ := tc.ne
  have h : (256 : Nat) ^ 2 = 65536 := by norm_num
  have hneg : (toInt16 (leNat (leBytes 2 n) : Nat)).val < 0 := by
    simp only [toInt16, leNat_leBytes, h]
    omega
  simp only [plainOptions.decodeStep, decoder_Int8_cons, decoder_Byte_cons]
  rcases ht with rfl | rfl
  · rw [if_neg n7, if_neg n8, if_neg n9, if_neg n10, if_pos rfl,
      decoder_Int16_append _ _ _ (leBytes_length 2 n)]
    simp only [if_pos hneg]
  · rw [if_neg n11, if_neg n12, if_neg n13, if_neg n14, if_neg n15, if_pos rfl,
      decoder_Int16_append _ _ _ (leBytes_length 2 n)]
    simp only [if_pos hneg]

/-- C2, as the code has it: for a block whose values are of the six option types,
text and binary values being at most 32767 octets long, and for every order
in which encode visits it, encode succeeds and decoding the octets it wrote
(whatever follows them) into an empty block with count = len(o) gives back
the block and consumes exactly those octets. -/
theorem plainOptions.decode_encode (tc : TypeCodes) (o : plainOptions)
    (trav : List (connectOption × optValue)) (rest : List Byte) (c : Nat)
    (hr : o.IsRange trav) (hf : ∀ k v, o k = some v → v.Fits) :
    ∃ out : List Byte, plainOptions.encode tc trav ⟨[]⟩ = .ok ⟨out⟩ ∧
      plainOptions.decode tc plainOptions.empty ⟨out ++ rest, c⟩ o.len
        = .ok (o, ⟨rest, c + out.length⟩) := by
  have hfits : ∀ e ∈ trav, e.2.Fits := by
    rintro ⟨k, v⟩ he
    exact hf k v ((hr.2 k v).1 he)
  have hno : ∀ e ∈ trav, e.2 ≠ .other := by
    intro e he hk
    have := hfits e he
    rw [hk] at this
    exact this
  obtain ⟨ws, h1, h2, h3, h4⟩ := plainOptions.exists_wire tc trav hfits
  refine ⟨plainOptions.wireBytes tc trav, ?_, ?_⟩
  · simpa using plainOptions.encode_eq tc trav hno ⟨[]⟩
  · rw [plainOptions.decode, Int.toNat_ofNat, ← hr.length_eq, ← h2, ← h1,
      plainOptions.decodeLoop_wire tc ws h3, h4, plainOptions.setAll_eq_of_isRange o trav hr]

theorem sampleBlock_fits : ∀ k v, sampleBlock k = some v → v.Fits := by
  intro k v h
  have hm := (sampleBlock_isRange.2 k v).2 h
  simp only [sampleRange, List.mem_cons, Prod.mk.injEq, List.mem_singleton, List.not_mem_nil,
    or_false] at hm
  rcases hm with ⟨_, rfl⟩ | ⟨_, rfl⟩ | ⟨_, rfl⟩ <;> simp [optValue.Fits]

theorem plainOptions.decode_encode_witness :
    sampleBlock.IsRange sampleRange ∧ (∀ k v, sampleBlock k = some v → v.Fits) ∧
      ∃ out : List Byte, plainOptions.encode hdbTypeCodes sampleRange ⟨[]⟩ = .ok ⟨out⟩ ∧
        plainOptions.decode hdbTypeCodes plainOptions.empty ⟨out ++ [], 0⟩ sampleBlock.len
          = .ok (sampleBlock, ⟨[], 0 + out.length⟩) :=
  ⟨sampleBlock_isRange, sampleBlock_fits,
    plainOptions.decode_encode hdbTypeCodes sampleBlock sampleRange [] 0 sampleBlock_isRange
      sampleBlock_fits⟩

/-- Decoding the single entry encode writes for a text whose length is 32768 or
more modulo 65536 panics. -/
theorem plainOptions.decodeLoop_long_text (tc : TypeCodes) (k : connectOption)
    (v : List Byte) (c : Nat) (hv : 32768 ≤ v.length % 65536) :
    plainOptions.decodeLoop tc 1 plainOptions.empty
        ⟨plainOptions.wireBytes tc [(k, .optStringType v)], c⟩
      = .error .panicMakeslice := by
  simp only [plainOptions.decodeLoop, plainOptions.wireBytes, List.map_cons, List.map_nil,
    List.flatten_cons, List.flatten_nil, List.append_nil, plainOptions.entryBytes]
  rw [plainOptions.decodeStep_negative_len tc _ _ _ _ _ _ (Or.inl rfl) hv]

/-- C2 as stated fails at a text of 32768 octets, within the 65535 the claim
allows: encode writes the block, and decoding what it wrote panics instead of
giving the block back. -/
theorem plainOptions.decode_encode_counterexample :
    (plainOptions.empty.set ⟨1, by decide⟩ (.optStringType longText)).IsRange
        [(⟨1, by decide⟩, .optStringType longText)] ∧
      longText.length ≤ 65535 ∧
      ∃ out : List Byte,
        plainOptions.encode hdbTypeCodes [(⟨1, by decide⟩, .optStringType longText)] ⟨[]⟩
          = .ok ⟨out⟩ ∧
        plainOptions.decode hdbTypeCodes plainOptions.empty ⟨out, 0⟩
            (plainOptions.empty.set ⟨1, by decide⟩ (.optStringType longText)).len
          = .error .panicMakeslice := by
  have hr := plainOptions.isRange_singleton ⟨1, by decide⟩ (.optStringType longText)
  have hl : longText.length = 32768 := by rw [longText, List.length_replicate]
  refine ⟨hr, by omega, plainOptions.wireBytes hdbTypeCodes
    [(⟨1, by decide⟩, .optStringType longText)], ?_, ?_⟩
  · simpa using plainOptions.encode_eq hdbTypeCodes
      [(⟨1, by decide⟩, .optStringType longText)] (by simp) ⟨[]⟩
  · rw [plainOptions.decode, Int.toNat_ofNat, ← hr.length_eq, List.length_singleton]
    exact plainOptions.decodeLoop_long_text hdbTypeCodes _ longText 0 (by rw [hl])

/-! ### Text and binary values of any length -/

theorem leBytes_two_mod (n : Nat) : leBytes 2 (n % 65536) = leBytes 2 n := by
  have e1 : byteOf (n % 65536) = byteOf n := by
    apply Fin.ext
    show n % 65536 % 256 = n % 256
    omega
  have e2 : byteOf (n % 65536 / 256) = byteOf (n / 256) := by
    apply Fin.ext
    show n % 65536 / 256 % 256 = n / 256 % 256
    omega
  simp only [leBytes, e1, e2]

theorem plainOptions.wireBytes_append (tc : TypeCodes)
    (a b : List (connectOption × optValue)) :
    plainOptions.wireBytes tc (a ++ b)
      = plainOptions.wireBytes tc a ++ plainOptions.wireBytes tc b := by
  simp [plainOptions.wireBytes]

theorem plainOptions.wireBytes_cons (tc : TypeCodes) (e : connectOption × optValue)
    (b : List (connectOption × optValue)) :
    plainOptions.wireBytes tc (e :: b)
      = plainOptions.entryBytes tc e ++ plainOptions.wireBytes tc b := by
  simp [plainOptions.wireBytes]

/-- C6, as the code has it: encode has no check of the length of a text or binary
value. Whatever the length of `v`, on a visit order whose values are of the six
option types encode succeeds and writes for the entry the key, the type tag,
the length of `v` reduced modulo 65536 in the 16-bit field, and then every octet
of `v`. -/
theorem plainOptions.encode_text_any_length (tc : TypeCodes)
    (pre post : List (connectOption × optValue)) (k : connectOption) (v : List Byte)
    (enc : Encoder) (hpre : ∀ e ∈ pre, e.2 ≠ .other) (hpost : ∀ e ∈ post, e.2 ≠ .other) :
    plainOptions.encode tc (pre ++ (k, .optStringType v) :: post) enc
        = .ok ⟨enc.wr ++ (plainOptions.wireBytes tc pre
            ++ (keyByte k :: tc.tcString :: (leBytes 2 (v.length % 65536) ++ v)
            ++ plainOptions.wireBytes tc post))⟩ ∧
      plainOptions.encode tc (pre ++ (k, .optBinaryStringType v) :: post) enc
        = .ok ⟨enc.wr ++ (plainOptions.wireBytes tc pre
            ++ (keyByte k :: tc.tcBstring :: (leBytes 2 (v.length % 65536) ++ v)
            ++ plainOptions.wireBytes tc post))⟩ := by
  constructor
  · have hall : ∀ e ∈ pre ++ (k, optValue.optStringType v) :: post, e.2 ≠ .other := by
      intro e he
      rcases List.mem_append.1 he with h | h
      · exact hpre e h
      · rcases List.mem_cons.1 h with rfl | h
        · exact optValue.noConfusion
        · exact hpost e h
    rw [plainOptions.encode_eq tc _ hall, plainOptions.wireBytes_append,
      plainOptions.wireBytes_cons, leBytes_two_mod]
    rfl
  · have hall : ∀ e ∈ pre ++ (k, optValue.optBinaryStringType v) :: post, e.2 ≠ .other := by
      intro e he
      rcases List.mem_append.1 he with h | h
      · exact hpre e h
      · rcases List.mem_cons.1 h with rfl | h
        · exact optValue.noConfusion
        · exact hpost e h
    rw [plainOptions.encode_eq tc _ hall, plainOptions.wireBytes_append,
      plainOptions.wireBytes_cons, leBytes_two_mod]
    rfl

theorem plainOptions.encode_text_any_length_witness :
    (∀ e ∈ ([] : List (connectOption × optValue)), e.2 ≠ .other) ∧
      plainOptions.encode hdbTypeCodes
          ([] ++ (⟨1, by decide⟩, .optStringType [7, 8]) :: []) ⟨[]⟩
        = .ok ⟨[1, 29, 2, 0, 7, 8]⟩ :=
  ⟨by simp,
    (plainOptions.encode_text_any_length hdbTypeCodes [] [] ⟨1, by decide⟩ [7, 8] ⟨[]⟩
      (by simp) (by simp)).1⟩

theorem plainOptions.encode_single_text (tc : TypeCodes) (k : connectOption) (v : List Byte)
    (enc : Encoder) :
    plainOptions.encode tc [(k, .optStringType v)] enc
      = .ok ⟨enc.wr ++ keyByte k :: tc.tcString :: (leBytes 2 v.length ++ v)⟩ := by
  rw [plainOptions.encode_eq tc _ (by simp), plainOptions.wireBytes_cons]
  simp [plainOptions.wireBytes, plainOptions.entryBytes]

/-- C6 as stated fails at a text of 65536 octets: encode does not fail, it writes
the key, the tag, a length field of zero and all 65536 octets. -/
theorem plainOptions.encode_text_counterexample :
    65535 < hugeText.length ∧
      plainOptions.encode hdbTypeCodes [(⟨1, by decide⟩, .optStringType hugeText)] ⟨[]⟩
        = .ok ⟨1 :: 29 :: 0 :: 0 :: hugeText⟩ := by
  have hl : hugeText.length = 65536 := by rw [hugeText, List.length_replicate]
  refine ⟨by omega, ?_⟩
  have h := plainOptions.encode_single_text hdbTypeCodes ⟨1, by decide⟩ hugeText ⟨[]⟩
  have hk : keyByte ⟨1, by decide⟩ = 1 := by decide
  have ht : hdbTypeCodes.tcString = 29 := rfl
  have hb : leBytes 2 65536 = [0, 0] := by decide
  rw [hl, hk, ht, hb] at h
  simp only [List.nil_append, List.cons_append] at h
  exact h

/-! ### Option sequences -/

theorem plainOptions.isRange_empty : plainOptions.empty.IsRange [] := by
  refine ⟨by simp, ?_⟩
  intro k v
  simp [plainOptions.empty]

theorem multiLineOptions.seq_sizeLoop_eq (rng : Nat → List (connectOption × optValue))
    (ms : List plainOptions) (i acc : Nat)
    (h : ∀ (j : Nat) (m : plainOptions), ms[j]? = some m → m.size (rng (i + j)) = .ok m.specSize) :
    multiLineOptions.sizeLoop rng i ms acc = .ok (acc + (ms.map plainOptions.specSize).sum) := by
  induction ms generalizing i acc with
  | nil => simp [multiLineOptions.sizeLoop]
  | cons m ms ih =>
    have h0 : m.size (rng i) = .ok m.specSize := by
      have := h 0 m (by simp)
      simpa using this
    have hs : ∀ (j : Nat) (x : plainOptions), ms[j]? = some x → x.size (rng (i + 1 + j)) = .ok x.specSize := by
      intro j x hj
      have := h (j + 1) x (by simpa using hj)
      have e : i + (j + 1) = i + 1 + j := by omega
      rw [e] at this
      exact this
    rw [multiLineOptions.sizeLoop, h0]
    simp only
    rw [ih (i + 1) (acc + m.specSize) hs, List.map_cons, List.sum_cons, Nat.add_assoc]

/-- C8: for a sequence whose blocks hold values of the six option types, size
returns the sum over the elements of the slice, in order, of what the size of
the block returns, and nothing else: no two octets per element for the entry
counts. -/
theorem multiLineOptions.size_eq_sum (s : multiLineOptions)
    (rng : Nat → List (connectOption × optValue))
    (hr : ∀ (i : Nat) (m : plainOptions), s.elems[i]? = some m → m.IsRange (rng i))
    (hv : ∀ m ∈ s.elems, ∀ k, m k ≠ some .other) :
    (∀ (i : Nat) (m : plainOptions), s.elems[i]? = some m → m.size (rng i) = .ok m.specSize) ∧
      s.size rng = .ok ((s.elems.map plainOptions.specSize).sum) := by
  have hsz : ∀ (i : Nat) (m : plainOptions), s.elems[i]? = some m → m.size (rng i) = .ok m.specSize := by
    intro i m hi
    exact m.size_eq (rng i) (hr i m hi) (hv m (List.getElem?_mem hi))
  refine ⟨hsz, ?_⟩
  have h := multiLineOptions.seq_sizeLoop_eq rng s.elems 0 0 (by simpa using hsz)
  simpa [multiLineOptions.size] using h

theorem sampleSeq_isRange : ∀ (i : Nat) (m : plainOptions), sampleSeq.elems[i]? = some m → m.IsRange (sampleRng i) := by
  intro i m h
  have he : sampleSeq.elems = [sampleBlock, plainOptions.empty] := rfl
  rw [he] at h
  match i with
  | 0 =>
    simp only [List.getElem?_cons_zero, Option.some.injEq] at h
    rw [← h]
    exact sampleBlock_isRange
  | 1 =>
    simp only [List.getElem?_cons_succ, List.getElem?_cons_zero, Option.some.injEq] at h
    rw [← h]
    exact plainOptions.isRange_empty
  | n + 2 => simp at h

theorem sampleSeq_ne_other : ∀ m ∈ sampleSeq.elems, ∀ k, m k ≠ some .other := by
  intro m hm k
  have he : sampleSeq.elems = [sampleBlock, plainOptions.empty] := rfl
  rw [he] at hm
  simp only [List.mem_cons, List.mem_singleton, List.not_mem_nil, or_false] at hm
  rcases hm with rfl | rfl
  · exact sampleBlock_ne_other k
  · simp [plainOptions.empty]

theorem multiLineOptions.size_eq_sum_witness :
    (∀ (i : Nat) (m : plainOptions), sampleSeq.elems[i]? = some m → m.IsRange (sampleRng i)) ∧
      sampleSeq.size sampleRng
        = .ok ((sampleSeq.elems.map plainOptions.specSize).sum) :=
  ⟨sampleSeq_isRange,
    (multiLineOptions.size_eq_sum sampleSeq sampleRng sampleSeq_isRange sampleSeq_ne_other).2⟩

theorem toInt16_leBytes (i : int16) :
    toInt16 (leNat (leBytes 2 (i.val % 65536).toNat)) = i := by
  obtain ⟨i, hi⟩ := i
  apply Subtype.ext
  have h : (256 : Nat) ^ 2 = 65536 := by norm_num
  simp only [toInt16, leNat_leBytes, h]
  omega

theorem WireLine.lines_flat_cons (l : WireLine) (ls : List WireLine) :
    WireLine.flat (l :: ls) = l.bytes ++ WireLine.flat ls := by
  simp [WireLine.flat]

/-- Decoding one well-formed sub-record: the count, then the block. -/
theorem WireLine.decode_line (tc : TypeCodes) (l : WireLine) (hl : l.WellFormed tc)
    (rest : List Byte) (c : Nat) :
    Decoder.Int16 ⟨l.bytes ++ rest, c⟩
        = .ok (l.cnt, ⟨WireEntry.flat l.entries ++ rest, c + 2⟩) ∧
      plainOptions.decode tc plainOptions.empty ⟨WireEntry.flat l.entries ++ rest, c + 2⟩
          l.cnt.val
        = .ok (l.block tc, ⟨rest, c + l.bytes.length⟩) := by
  constructor
  · rw [WireLine.bytes, List.append_assoc, decoder_Int16_append _ _ _ (leBytes_length 2 _),
      toInt16_leBytes]
  · rw [plainOptions.decode, ← hl.1, plainOptions.decodeLoop_wire tc _ hl.2, WireLine.block,
      WireLine.bytes, List.length_append, leBytes_length, Nat.add_assoc]

theorem multiLineOptions.storeFrom_length (bs : List plainOptions) (i : Nat)
    (arr : List plainOptions) : (multiLineOptions.storeFrom i bs arr).length = arr.length := by
  induction bs generalizing i arr with
  | nil => rfl
  | cons b bs ih => rw [multiLineOptions.storeFrom, ih, List.length_set]

theorem multiLineOptions.storeFrom_take (bs : List plainOptions) (i : Nat)
    (arr : List plainOptions) (h : i + bs.length ≤ arr.length) :
    (multiLineOptions.storeFrom i bs arr).take (i + bs.length) = arr.take i ++ bs := by
  induction bs generalizing i arr with
  | nil => simp [multiLineOptions.storeFrom]
  | cons b bs ih =>
    simp only [List.length_cons] at h
    have hi : i < arr.length := by omega
    have hset : (arr.set i b).take (i + 1) = arr.take i ++ [b] := by
      rw [List.set_eq_take_append_cons_drop, if_pos hi, List.take_append_eq_append_take,
        List.length_take, Nat.min_eq_left (Nat.le_of_lt hi)]
      simp
    have e : i + (b :: bs).length = i + 1 + bs.length := by
      simp only [List.length_cons]
      omega
    rw [multiLineOptions.storeFrom, e, ih (i + 1) (arr.set i b) (by simp; omega), hset]
    simp

theorem multiLineOptions.decodeLoop_lines (tc : TypeCodes) (ls : List WireLine)
    (hls : ∀ l ∈ ls, l.WellFormed tc) (i : Nat) (o : multiLineOptions) (rest : List Byte)
    (c : Nat) (hi : i + ls.length ≤ o.len) :
    multiLineOptions.decodeLoop tc ls.length i o ⟨WireLine.flat ls ++ rest, c⟩
      = .ok (⟨multiLineOptions.storeFrom i (ls.map (WireLine.block tc)) o.array, o.len⟩,
          ⟨rest, c + (WireLine.flat ls).length⟩) := by
  induction ls generalizing i o c with
  | nil => simp [multiLineOptions.decodeLoop, multiLineOptions.storeFrom, WireLine.flat]
  | cons l ls ih =>
    simp only [List.length_cons] at hi
    have hlt : i < o.len := by omega
    obtain ⟨h1, h2⟩ := WireLine.decode_line tc l (hls l (List.mem_cons_self _ _))
      (WireLine.flat ls ++ rest) c
    have hrec := ih (fun x hx => hls x (List.mem_cons_of_mem _ hx)) (i + 1)
      ⟨o.array.set i (l.block tc), o.len⟩ (c + l.bytes.length) (by simp only; omega)
    rw [List.length_cons, multiLineOptions.decodeLoop, if_pos hlt, WireLine.lines_flat_cons,
      List.append_assoc, h1]
    simp only [h2, hrec, List.map_cons, multiLineOptions.storeFrom, List.length_append,
      Nat.add_assoc]

theorem multiLineOptions.reset_ok (prior : multiLineOptions) (n : Nat) :
    ∃ arr : List plainOptions, prior.reset (n : Int) = .ok ⟨arr, n⟩ ∧ n ≤ arr.length := by
  unfold multiLineOptions.reset
  simp only [Int.toNat_ofNat]
  split_ifs with h1 h2
  · exact ⟨_, rfl, by simp⟩
  · omega
  · refine ⟨_, rfl, ?_⟩
    simp only [multiLineOptions.cap] at h1
    omega

theorem multiLineOptions.decodeLoop_zero (tc : TypeCodes) (ls : List WireLine)
    (hls : ∀ l ∈ ls, l.WellFormed tc) (rest : List Byte) (c : Nat) (arr : List plainOptions)
    (harr : ls.length ≤ arr.length) :
    ∃ s : multiLineOptions,
      multiLineOptions.decodeLoop tc ls.length 0 ⟨arr, ls.length⟩ ⟨WireLine.flat ls ++ rest, c⟩
        = .ok (s, ⟨rest, c + (WireLine.flat ls).length⟩) ∧
      s.len = ls.length ∧ s.elems = ls.map (WireLine.block tc) := by
  refine ⟨_, multiLineOptions.decodeLoop_lines tc ls hls 0 ⟨arr, ls.length⟩ rest c
    (by simp), rfl, ?_⟩
  have h := multiLineOptions.storeFrom_take (ls.map (WireLine.block tc)) 0 arr
    (by simpa using harr)
  simpa [multiLineOptions.elems] using h

/-- C9: whatever the sequence held before (any backing array, any length), decode
with lineCount = n on a stream of n well-formed sub-records succeeds, consumes
them, and leaves the sequence with length n, its elements being, in order, the
blocks of the sub-records: each the entries of its sub-record stored into an
empty block, so nothing of the previous contents is left. -/
theorem multiLineOptions.decode_exact (tc : TypeCodes) (prior : multiLineOptions)
    (ls : List WireLine) (rest : List Byte) (c : Nat) (hls : ∀ l ∈ ls, l.WellFormed tc) :
    ∃ s : multiLineOptions,
      multiLineOptions.decode tc prior ⟨WireLine.flat ls ++ rest, c⟩ (ls.length : Int)
        = .ok (s, ⟨rest, c + (WireLine.flat ls).length⟩) ∧
      s.len = ls.length ∧ s.elems = ls.map (WireLine.block tc) ∧
      ∀ (i : Nat) (l : WireLine), ls[i]? = some l →
        s.elems[i]? = some (plainOptions.empty.putAll tc l.entries) := by
  obtain ⟨arr, ha, hlen⟩ := prior.reset_ok ls.length
  obtain ⟨s, h1, h2, h3⟩ := multiLineOptions.decodeLoop_zero tc ls hls rest c arr hlen
  refine ⟨s, ?_, h2, h3, ?_⟩
  · rw [multiLineOptions.decode, ha]
    simpa using h1
  · intro i l hi
    rw [h3, List.getElem?_map, hi]
    rfl

theorem multiLineOptions.decode_exact_witness :
    (∀ l ∈ sampleLines, l.WellFormed hdbTypeCodes) ∧
      ∃ s : multiLineOptions,
        multiLineOptions.decode hdbTypeCodes sampleSeq
            ⟨WireLine.flat sampleLines ++ [], 0⟩ (sampleLines.length : Int)
          = .ok (s, ⟨[], 0 + (WireLine.flat sampleLines).length⟩) ∧
        s.len = sampleLines.length ∧
        s.elems = sampleLines.map (WireLine.block hdbTypeCodes) := by
  obtain ⟨s, h1, h2, h3, _⟩ :=
    multiLineOptions.decode_exact hdbTypeCodes sampleSeq sampleLines [] 0 (by decide)
  exact ⟨by decide, s, h1, h2, h3⟩

theorem connectOption.all_length : connectOption.all.length = 256 := by
  simp [connectOption.all]

theorem plainOptions.len_le (o : plainOptions) : o.len ≤ 256 := by
  rw [plainOptions.len, plainOptions.entries, ← connectOption.all_length]
  exact List.length_filterMap_le _ _

theorem multiLineOptions.exists_lines (tc : TypeCodes)
    (rng : Nat → List (connectOption × optValue)) (ms : List plainOptions) (i : Nat)
    (hr : ∀ (j : Nat) (m : plainOptions), ms[j]? = some m → m.IsRange (rng (i + j)))
    (hf : ∀ m ∈ ms, ∀ k v, m k = some v → v.Fits) :
    ∃ ls : List WireLine, ls.map (WireLine.block tc) = ms ∧ (∀ l ∈ ls, l.WellFormed tc) ∧
      ∀ enc : Encoder,
        multiLineOptions.encodeLoop tc rng i ms enc = .ok ⟨enc.wr ++ WireLine.flat ls⟩ := by
  induction ms generalizing i with
  | nil => exact ⟨[], rfl, by simp, fun enc => by simp [multiLineOptions.encodeLoop,
      WireLine.flat]⟩
  | cons m ms ih =>
    have hm : m.IsRange (rng i) := by
      have := hr 0 m (by simp)
      simpa using this
    have hs : ∀ (j : Nat) (x : plainOptions), ms[j]? = some x → x.IsRange (rng (i + 1 + j)) := by
      intro j x hj
      have := hr (j + 1) x (by simpa using hj)
      have e : i + (j + 1) = i + 1 + j := by omega
      rw [e] at this
      exact this
    obtain ⟨ls, h1, h2, h3⟩ := ih (i + 1) hs (fun x hx => hf x (List.mem_cons_of_mem _ hx))
    have hfits : ∀ e ∈ rng i, e.2.Fits := by
      rintro ⟨k, v⟩ he
      exact hf m (List.mem_cons_self _ _) k v ((hm.2 k v).1 he)
    have hno : ∀ e ∈ rng i, e.2 ≠ .other := by
      intro e he hk
      have := hfits e he
      rw [hk] at this
      exact this
    obtain ⟨ws, w1, w2, w3, w4⟩ := plainOptions.exists_wire tc (rng i) hfits
    have hlen := m.len_le
    have hcnt : (toInt16 (m.len : Nat)).val.toNat = m.len := by
      simp only [toInt16]
      omega
    refine ⟨⟨toInt16 m.len, ws⟩ :: ls, ?_, ?_, ?_⟩
    · rw [List.map_cons, h1, WireLine.block, w4, plainOptions.setAll_eq_of_isRange m _ hm]
    · intro l hl
      rcases List.mem_cons.1 hl with rfl | hl
      · exact ⟨by rw [w2, hm.length_eq, hcnt], w3⟩
      · exact h2 l hl
    · intro enc
      rw [multiLineOptions.encodeLoop, plainOptions.encode_eq tc _ hno]
      simp only [h3, WireLine.lines_flat_cons, WireLine.bytes, w1, Encoder.Int16, List.append_assoc]

theorem multiLineOptions.elems_length (s : multiLineOptions) (hs : s.len ≤ s.cap) :
    s.elems.length = s.len := by
  rw [multiLineOptions.elems, List.length_take]
  exact Nat.min_eq_left hs

/-- C4: for a sequence whose blocks hold values of the six option types, text and
binary values being at most 32767 octets long, and whatever the orders in
which the blocks are visited, encode succeeds, and decoding what it wrote with
lineCount = len(s), into a sequence with whatever prior contents, gives a
sequence of the same length with the same blocks in the same order. -/
theorem multiLineOptions.seq_decode_encode (tc : TypeCodes) (s prior : multiLineOptions)
    (rng : Nat → List (connectOption × optValue)) (rest : List Byte) (c : Nat)
    (hs : s.len ≤ s.cap)
    (hr : ∀ (i : Nat) (m : plainOptions), s.elems[i]? = some m → m.IsRange (rng i))
    (hf : ∀ m ∈ s.elems, ∀ k v, m k = some v → v.Fits) :
    ∃ (out : List Byte) (r : multiLineOptions),
      multiLineOptions.encode tc s rng ⟨[]⟩ = .ok ⟨out⟩ ∧
      multiLineOptions.decode tc prior ⟨out ++ rest, c⟩ (s.len : Int)
        = .ok (r, ⟨rest, c + out.length⟩) ∧
      r.len = s.len ∧ r.elems = s.elems ∧
      ∀ i : Nat, i < s.len → r.elems[i]? = s.elems[i]? := by
  obtain ⟨ls, h1, h2, h3⟩ := multiLineOptions.exists_lines tc rng s.elems 0
    (by simpa using hr) hf
  have hlen : ls.length = s.len := by
    rw [← s.elems_length hs, ← h1, List.length_map]
  obtain ⟨arr, ha, harr⟩ := prior.reset_ok ls.length
  obtain ⟨r, r1, r2, r3⟩ := multiLineOptions.decodeLoop_zero tc ls h2 rest c arr harr
  rw [hlen] at r2 ha
  rw [h1] at r3
  refine ⟨WireLine.flat ls, r, ?_, ?_, r2, r3, fun i _ => by rw [r3]⟩
  · simpa [multiLineOptions.encode] using h3 ⟨[]⟩
  · rw [multiLineOptions.decode, ha]
    simpa [hlen] using r1

theorem multiLineOptions.seq_decode_encode_witness :
    sampleSeq.len ≤ sampleSeq.cap ∧
      ∃ (out : List Byte) (r : multiLineOptions),
        multiLineOptions.encode hdbTypeCodes sampleSeq sampleRng ⟨[]⟩ = .ok ⟨out⟩ ∧
        multiLineOptions.decode hdbTypeCodes ⟨[], 0⟩ ⟨out ++ [], 0⟩ (sampleSeq.len : Int)
          = .ok (r, ⟨[], 0 + out.length⟩) ∧
        r.len = sampleSeq.len ∧ r.elems = sampleSeq.elems ∧
        ∀ i : Nat, i < sampleSeq.len → r.elems[i]? = sampleSeq.elems[i]? := by
  have hf : ∀ m ∈ sampleSeq.elems, ∀ k v, m k = some v → v.Fits := by
    intro m hm k v h
    have he : sampleSeq.elems = [sampleBlock, plainOptions.empty] := rfl
    rw [he] at hm
    simp only [List.mem_cons, List.mem_singleton, List.not_mem_nil, or_false] at hm
    rcases hm with rfl | rfl
    · exact sampleBlock_fits k v h
    · simp [plainOptions.empty] at h
  exact ⟨by decide, multiLineOptions.seq_decode_encode hdbTypeCodes sampleSeq ⟨[], 0⟩ sampleRng []
    0 (by decide) sampleSeq_isRange hf⟩

/-! ### Batch errors -/

theorem collectErrors_length (outcomes : List rowOutcome) (no : Nat) :
    (collectErrors no outcomes).length = outcomes.countP rowOutcome.isFailed := by
  induction outcomes generalizing no with
  | nil => rfl
  | cons r rest ih =>
    cases r with
    | affected rows => simp [collectErrors, ih, rowOutcome.isFailed]
    | failed code => simp [collectErrors, ih, rowOutcome.isFailed]

theorem mem_collectErrors (outcomes : List rowOutcome) (no n : Nat) (code : Int) :
    (⟨n, code⟩ : hdbError) ∈ collectErrors no outcomes
      ↔ no ≤ n ∧ outcomes[n - no]? = some (.failed code) := by
  induction outcomes generalizing no with
  | nil => simp [collectErrors]
  | cons r rest ih =>
    have hstep : no + 1 ≤ n → (r :: rest)[n - no]? = rest[n - (no + 1)]? := by
      intro h
      have e : n - no = (n - (no + 1)) + 1 := by omega
      rw [e, List.getElem?_cons_succ]
    cases r with
    | affected rows =>
      rw [collectErrors, ih]
      constructor
      · rintro ⟨h1, h2⟩
        exact ⟨by omega, by rw [hstep h1]; exact h2⟩
      · rintro ⟨h1, h2⟩
        by_cases hn : n = no
        · subst hn
          simp at h2
        · have h3 : no + 1 ≤ n := by omega
          exact ⟨h3, by rw [← hstep h3]; exact h2⟩
    | failed c =>
      rw [collectErrors, List.mem_cons, ih]
      constructor
      · rintro (h | ⟨h1, h2⟩)
        · injection h with hn hc
          subst hn
          subst hc
          simp
        · exact ⟨by omega, by rw [hstep h1]; exact h2⟩
      · rintro ⟨h1, h2⟩
        by_cases hn : n = no
        · subst hn
          simp only [Nat.sub_self, List.getElem?_cons_zero, Option.some.injEq,
            rowOutcome.failed.injEq] at h2
          subst h2
          exact Or.inl rfl
        · have h3 : no + 1 ≤ n := by omega
          exact Or.inr ⟨h3, by rw [← hstep h3]; exact h2⟩

theorem collectErrors_pairwise (outcomes : List rowOutcome) (no : Nat) :
    (collectErrors no outcomes).Pairwise (fun a b => a.stmtNo < b.stmtNo) := by
  induction outcomes generalizing no with
  | nil => simp [collectErrors]
  | cons r rest ih =>
    cases r with
    | affected rows => exact ih (no + 1)
    | failed c =>
      rw [collectErrors, List.pairwise_cons]
      refine ⟨?_, ih (no + 1)⟩
      rintro ⟨n, code⟩ hx
      have := ((mem_collectErrors rest (no + 1) n code).1 hx).1
      simp only
      omega

theorem flushError_errors (outcomes : List rowOutcome) (e : Error)
    (h : flushError outcomes = some e) :
    e.errors = collectErrors 1 outcomes ∧ e.idx = 0 := by
  unfold flushError at h
  split at h
  · exact Option.noConfusion h
  · rename_i x xs hx
    rw [hx, ← Option.some.inj h]
    exact ⟨rfl, rfl⟩

theorem flushError_none (outcomes : List rowOutcome)
    (h : outcomes.countP rowOutcome.isFailed = 0) : flushError outcomes = none := by
  have hl := collectErrors_length outcomes 1
  rw [h] at hl
  rw [flushError, List.length_eq_zero.1 hl]

theorem flushError_some (outcomes : List rowOutcome)
    (h : 0 < outcomes.countP rowOutcome.isFailed) :
    ∃ e : Error, flushError outcomes = some e := by
  have hl := collectErrors_length outcomes 1
  unfold flushError
  cases hc : collectErrors 1 outcomes with
  | nil =>
    rw [hc] at hl
    simp only [List.length_nil] at hl
    omega
  | cons x xs => exact ⟨⟨x :: xs, 0⟩, rfl⟩

theorem Error.StmtNo_SetIdx (e : Error) (i n : Nat) :
    (e.SetIdx i).StmtNo = some n ↔ ∃ code, e.errors[i]? = some ⟨n, code⟩ := by
  simp only [Error.StmtNo, Error.SetIdx, Option.map_eq_some']
  constructor
  · rintro ⟨⟨m, code⟩, h1, h2⟩
    simp only at h2
    subst h2
    exact ⟨code, h1⟩
  · rintro ⟨code, h⟩
    exact ⟨⟨n, code⟩, h, rfl⟩

/-- C10: for every transmitted batch, given as the outcomes the server reports row
by row: when no row failed the flush returns no error; when a row failed it
returns a Batch Error that has one entry per failed row, so that `NumError()` is
the number of failed rows; the entry selected by `SetIdx(i)` is the failure of
a failed row of this batch and carries as `StmtNo()` the 1-based position of
that row in the batch (index n counted from zero gives n + 1); the statement
numbers increase strictly with `i`; every failed row has its entry and no
successful row has one. The flush sees the outcomes of this batch only, so
no earlier batch enters the numbers. -/
theorem flushError_stmtNo (outcomes : List rowOutcome) :
    (outcomes.countP rowOutcome.isFailed = 0 → flushError outcomes = none) ∧
      (0 < outcomes.countP rowOutcome.isFailed →
        ∃ e : Error, flushError outcomes = some e ∧
          e.NumError = outcomes.countP rowOutcome.isFailed ∧
          (∀ i : Nat, i < e.NumError →
            ∃ (n : Nat) (code : Int), e.errors[i]? = some ⟨n + 1, code⟩ ∧
              (e.SetIdx i).StmtNo = some (n + 1) ∧ outcomes[n]? = some (.failed code)) ∧
          (∀ i j a b : Nat, i < j → (e.SetIdx i).StmtNo = some a →
            (e.SetIdx j).StmtNo = some b → a < b) ∧
          (∀ (n : Nat) (code : Int), outcomes[n]? = some (.failed code) →
            ∃ i : Nat, i < e.NumError ∧ (e.SetIdx i).StmtNo = some (n + 1)) ∧
          (∀ n rows : Nat, outcomes[n]? = some (.affected rows) →
            ∀ i : Nat, (e.SetIdx i).StmtNo ≠ some (n + 1))) := by
  refine ⟨flushError_none outcomes, fun hpos => ?_⟩
  obtain ⟨e, h⟩ := flushError_some outcomes hpos
  obtain ⟨he, _⟩ := flushError_errors outcomes e h
  have hmem : ∀ (n : Nat) (code : Int),
      (⟨n + 1, code⟩ : hdbError) ∈ e.errors ↔ outcomes[n]? = some (.failed code) := by
    intro n code
    rw [he, mem_collectErrors]
    simp
  have hpos1 : ∀ (m : Nat) (code : Int), (⟨m, code⟩ : hdbError) ∈ e.errors → 1 ≤ m := by
    intro m code hm
    rw [he] at hm
    exact ((mem_collectErrors outcomes 1 m code).1 hm).1
  refine ⟨e, h, ?_, ?_, ?_, ?_, ?_⟩
  · rw [Error.NumError, he, collectErrors_length]
  · intro i hi
    obtain ⟨⟨m, code⟩, hx⟩ : ∃ x, e.errors[i]? = some x :=
      ⟨_, List.getElem?_eq_getElem hi⟩
    have hm := hpos1 m code (List.getElem?_mem hx)
    obtain ⟨n, rfl⟩ : ∃ n, m = n + 1 := ⟨m - 1, by omega⟩
    exact ⟨n, code, hx, (e.StmtNo_SetIdx i (n + 1)).2 ⟨code, hx⟩,
      (hmem n code).1 (List.getElem?_mem hx)⟩
  · intro i j a b hij hi hj
    obtain ⟨ci, hi⟩ := (e.StmtNo_SetIdx i a).1 hi
    obtain ⟨cj, hj⟩ := (e.StmtNo_SetIdx j b).1 hj
    obtain ⟨hil, hie⟩ := List.getElem?_eq_some.1 hi
    obtain ⟨hjl, hje⟩ := List.getElem?_eq_some.1 hj
    have hp := collectErrors_pairwise outcomes 1
    rw [← he] at hp
    have := (List.pairwise_iff_getElem.1 hp) i j hil hjl hij
    rw [hie, hje] at this
    exact this
  · intro n code hn
    obtain ⟨i, hi⟩ := List.mem_iff_getElem?.1 ((hmem n code).2 hn)
    exact ⟨i, (List.getElem?_eq_some.1 hi).1, (e.StmtNo_SetIdx i (n + 1)).2 ⟨code, hi⟩⟩
  · intro n rows hn i hi
    obtain ⟨code, hc⟩ := (e.StmtNo_SetIdx i (n + 1)).1 hi
    have := (hmem n code).1 (List.getElem?_mem hc)
    rw [hn] at this
    exact rowOutcome.noConfusion (Option.some.inj this)

theorem flushError_stmtNo_witness :
    flushError [.affected 1, .affected 1, .affected 1] = none ∧
      flushError [.affected 1, .failed 301, .failed 301, .failed 301, .affected 1]
        = some ⟨[⟨2, 301⟩, ⟨3, 301⟩, ⟨4, 301⟩], 0⟩ ∧
      ∃ e : Error,
        flushError [.affected 1, .failed 301, .failed 301, .failed 301, .affected 1]
          = some e ∧
        e.NumError = 3 := by
  obtain ⟨e, h1, h2, _⟩ :=
    (flushError_stmtNo [.affected 1, .failed 301, .failed 301, .failed 301, .affected 1]).2
      (by decide)
  exact ⟨(flushError_stmtNo [.affected 1, .affected 1, .affected 1]).1 (by decide),
    by decide, e, h1, h2⟩

/-- The repository's test against the flush as the spec numbers it. The second
batch of `testBulkInsertDuplicates` sends the rows 0 to 4 to a table that holds
the keys 1, 2, 3, so the failed rows are the second, third and fourth of the
batch: the 1-based positions of the spec are 2, 3, 4, the test asserts the
statement numbers 1, 2, 3, and the test does not pass on the spec's numbering. -/
theorem testBulkInsertDuplicates_on_spec :
    (insertRows [] (testRows 1 4)) = ([.affected 1, .affected 1, .affected 1], [3, 2, 1]) ∧
      (insertRows [3, 2, 1] (testRows 0 5)).1
        = [.affected 1, .failed 301, .failed 301, .failed 301, .affected 1] ∧
      (flushError (insertRows [3, 2, 1] (testRows 0 5)).1).map
          (fun e => e.errors.map hdbError.stmtNo) = some [2, 3, 4] ∧
      testBulkInsertDuplicates = false := by
  decide

/-! ### Tag and variant -/

theorem plainOptions.entryBytes_eq (tc : TypeCodes) (k : connectOption) (v : optValue)
    (t : Byte) (ht : v.variantTag tc = some t) :
    plainOptions.entryBytes tc (k, v) = keyByte k :: t :: v.payloadBytes := by
  cases v <;> simp only [optValue.variantTag, Option.some.injEq] at ht <;>
    first
    | (subst ht; rfl)
    | exact absurd ht (by simp)

theorem optValue.variantTag_ne_other (tc : TypeCodes) (v : optValue) (t : Byte)
    (ht : v.variantTag tc = some t) : v ≠ .other := by
  intro h
  rw [h] at ht
  exact Option.noConfusion ht

theorem WireEntry.value_variantTag (tc : TypeCodes) (w : WireEntry) (u : optValue)
    (h : w.value tc = some u) : u.variantTag tc = some w.tag := by
  unfold WireEntry.value at h
  split_ifs at h with t1 p1 t2 p2 t3 p3 t4 p4 t5 p5 t6 p6 <;>
    (rw [← Option.some.inj h]; simp [optValue.variantTag, *])

theorem plainOptions.set_self (o : plainOptions) (k : connectOption) (v : optValue) :
    (o.set k v) k = some v := by
  simp [plainOptions.set]

/-- One iteration of decode on a stream that begins with the key octet `kb` and
the tag octet `tb`: when it succeeds, the value it stored under the key is of
the variant the tag names. -/
theorem plainOptions.decodeStep_variant (tc : TypeCodes) (o p : plainOptions) (kb tb : Byte)
    (rest : List Byte) (c : Nat) (d : Decoder)
    (h : plainOptions.decodeStep tc o ⟨kb :: tb :: rest, c⟩ = .ok (p, d)) :
    ∃ u : optValue, p (toInt8 kb.val) = some u ∧ u.variantTag tc = some tb := by
  simp only [plainOptions.decodeStep, decoder_Int8_cons, decoder_Byte_cons] at h
  repeat' split at h
  all_goals
    first
    | exact Except.noConfusion h
    | (have hp := (Prod.mk.inj (Except.ok.inj h)).1
       rw [← hp]
       refine ⟨_, plainOptions.set_self _ _ _, ?_⟩
       simp [optValue.variantTag, *])

/-- C11: on a visit order whose values are of the six option types, encode writes
for the entry (k, v) the key octet of k, then the one tag octet `t` that names
the variant of v, then the payload of v, which for text and binary is the
length in 16 bits followed by the octets; and whenever an iteration of decode
on a stream beginning with a key octet and a tag octet succeeds, and after
decode of a run of well-formed entries for the last entry of each key, the
value stored under the key is of the variant the tag names. -/
theorem plainOptions.tag_names_variant (tc : TypeCodes)
    (pre post : List (connectOption × optValue)) (k : connectOption) (v : optValue)
    (t : Byte) (enc : Encoder) (hpre : ∀ e ∈ pre, e.2 ≠ .other)
    (hpost : ∀ e ∈ post, e.2 ≠ .other) (ht : v.variantTag tc = some t) :
    plainOptions.encode tc (pre ++ (k, v) :: post) enc
        = .ok ⟨enc.wr ++ (plainOptions.wireBytes tc pre
            ++ (keyByte k :: t :: v.payloadBytes ++ plainOptions.wireBytes tc post))⟩ ∧
      (∀ s : List Byte, v = .optStringType s ∨ v = .optBinaryStringType s →
        v.payloadBytes = leBytes 2 s.length ++ s) ∧
      (∀ (o p : plainOptions) (kb tb : Byte) (rest : List Byte) (c : Nat) (d : Decoder),
        plainOptions.decodeStep tc o ⟨kb :: tb :: rest, c⟩ = .ok (p, d) →
        ∃ u : optValue, p (toInt8 kb.val) = some u ∧ u.variantTag tc = some tb) ∧
      (∀ (o : plainOptions) (ws1 ws2 : List WireEntry) (w : WireEntry) (rest : List Byte)
        (c : Nat), (∀ x ∈ ws1 ++ w :: ws2, x.WellFormed tc) →
        (∀ x ∈ ws2, x.optKey ≠ w.optKey) →
        ∃ (p : plainOptions) (u : optValue),
          plainOptions.decode tc o ⟨WireEntry.flat (ws1 ++ w :: ws2) ++ rest, c⟩
              ((ws1 ++ w :: ws2).length : Int)
            = .ok (p, ⟨rest, c + (WireEntry.flat (ws1 ++ w :: ws2)).length⟩) ∧
          p w.optKey = some u ∧ u.variantTag tc = some w.tag) := by
  refine ⟨?_, ?_, ?_, ?_⟩
  · have hall : ∀ e ∈ pre ++ (k, v) :: post, e.2 ≠ .other := by
      intro e he
      rcases List.mem_append.1 he with h | h
      · exact hpre e h
      · rcases List.mem_cons.1 h with rfl | h
        · exact optValue.variantTag_ne_other tc v t ht
        · exact hpost e h
    rw [plainOptions.encode_eq tc _ hall, plainOptions.wireBytes_append,
      plainOptions.wireBytes_cons, plainOptions.entryBytes_eq tc k v t ht]
  · rintro s (rfl | rfl) <;> rfl
  · intro o p kb tb rest c d h
    exact plainOptions.decodeStep_variant tc o p kb tb rest c d h
  · intro o ws1 ws2 w rest c hws hlast
    have hw : w.WellFormed tc := hws w (by simp)
    obtain ⟨u, hu⟩ := Option.ne_none_iff_exists'.1 hw
    refine ⟨o.putAll tc (ws1 ++ w :: ws2), u, ?_, ?_, WireEntry.value_variantTag tc w u hu⟩
    · rw [plainOptions.decode, Int.toNat_ofNat, plainOptions.decodeLoop_wire tc _ hws]
    · rw [plainOptions.putAll_apply_last tc o ws1 ws2 w hw hlast, hu]

theorem plainOptions.tag_names_variant_witness :
    (optValue.optIntType ⟨-5, by decide⟩).variantTag hdbTypeCodes = some 3 ∧
      plainOptions.encode hdbTypeCodes
          ([] ++ (⟨-2, by decide⟩, .optIntType ⟨-5, by decide⟩) :: []) ⟨[]⟩
        = .ok ⟨[254, 3, 251, 255, 255, 255]⟩ := by
  have h := (plainOptions.tag_names_variant hdbTypeCodes [] [] ⟨-2, by decide⟩
    (.optIntType ⟨-5, by decide⟩) 3 ⟨[]⟩ (by simp) (by simp) rfl).1
  have hb : keyByte ⟨-2, by decide⟩ :: 3 ::
      (optValue.optIntType ⟨-5, by decide⟩).payloadBytes = [254, 3, 251, 255, 255, 255] := by
    decide
  have hw : plainOptions.wireBytes hdbTypeCodes [] = [] := rfl
  rw [hw, List.append_nil, List.nil_append, List.nil_append, hb] at h
  exact ⟨rfl, h⟩

/-! ### Octets consumed by decode -/

theorem WireEntry.flat_length (ws : List WireEntry) :
    (WireEntry.flat ws).length = (ws.map (fun w => 2 + w.payload.length)).sum := by
  induction ws with
  | nil => rfl
  | cons w ws ih =>
    rw [WireEntry.flat_cons, List.length_append, ih, List.map_cons, List.sum_cons,
      WireEntry.bytes]
    simp only [List.length_cons]
    omega

theorem WireEntry.value_payloadWidth (tc : TypeCodes) (w : WireEntry) (v : optValue)
    (h : w.value tc = some v) : v.payloadWidth = w.payload.length ∧ v ≠ .other := by
  unfold WireEntry.value at h
  split_ifs at h with t1 p1 t2 p2 t3 p3 t4 p4 t5 p5 t6 p6 <;>
    rw [← Option.some.inj h] <;>
    refine ⟨?_, optValue.noConfusion⟩ <;>
    simp only [optValue.payloadWidth, List.length_drop] <;>
    omega

/-- The entries a run of well-formed wire entries stands for. -/
theorem plainOptions.exists_entries (tc : TypeCodes) (ws : List WireEntry)
    (hws : ∀ w ∈ ws, w.WellFormed tc) :
    ∃ l : List (connectOption × optValue), l.map Prod.fst = ws.map WireEntry.optKey ∧
      (∀ o : plainOptions, o.putAll tc ws = o.setAll l) ∧
      (l.map (fun e => e.2.entryWireSize)).sum
        = (ws.map (fun w => 2 + w.payload.length)).sum ∧
      ∀ e ∈ l, e.2 ≠ .other := by
  induction ws with
  | nil => exact ⟨[], rfl, fun _ => rfl, rfl, by simp⟩
  | cons w ws ih =>
    obtain ⟨l, h1, h2, h3, h4⟩ := ih (fun x hx => hws x (List.mem_cons_of_mem _ hx))
    obtain ⟨v, hv⟩ := Option.ne_none_iff_exists'.1 (hws w (List.mem_cons_self _ _))
    obtain ⟨hw1, hw2⟩ := WireEntry.value_payloadWidth tc w v hv
    refine ⟨(w.optKey, v) :: l, by simp [h1], ?_, ?_, ?_⟩
    · intro o
      have h := h2 (o.set w.optKey v)
      simp only [plainOptions.putAll, plainOptions.setAll] at h ⊢
      simp only [List.foldl_cons, plainOptions.put_of_value tc o w v hv, h]
    · rw [List.map_cons, List.sum_cons, List.map_cons, List.sum_cons, h3]
      simp only [optValue.entryWireSize, hw1]
    · intro e he
      rcases List.mem_cons.1 he with rfl | he
      · exact hw2
      · exact h4 e he

theorem plainOptions.setAll_apply_mem (l : List (connectOption × optValue))
    (hnd : (l.map Prod.fst).Nodup) (k : connectOption) (v : optValue) (hm : (k, v) ∈ l)
    (o : plainOptions) : (o.setAll l) k = some v := by
  obtain ⟨a, b, hab⟩ := List.append_of_mem hm
  rw [hab, List.map_append, List.map_cons] at hnd
  have hb : ∀ e ∈ b, e.1 ≠ k := by
    intro e he hk
    have h1 := (List.nodup_append.1 hnd).2.1
    have h2 := (List.nodup_cons.1 h1).1
    have hmem : e.1 ∈ b.map Prod.fst := List.mem_map_of_mem Prod.fst he
    rw [hk] at hmem
    exact h2 hmem
  have hsplit : o.setAll l = ((o.setAll a).set k v).setAll b := by
    rw [hab]
    simp [plainOptions.setAll]
  rw [hsplit, plainOptions.setAll_apply_of_ne b k hb]
  exact plainOptions.set_self _ _ _

theorem plainOptions.setAll_isRange (l : List (connectOption × optValue))
    (hnd : (l.map Prod.fst).Nodup) : (plainOptions.empty.setAll l).IsRange l := by
  refine ⟨hnd, fun k v => ⟨fun hm => plainOptions.setAll_apply_mem l hnd k v hm _, ?_⟩⟩
  intro h
  by_cases hk : ∃ e ∈ l, e.1 = k
  · obtain ⟨⟨k2, u⟩, he, hke⟩ := hk
    simp only at hke
    subst hke
    have := plainOptions.setAll_apply_mem l hnd k2 u he plainOptions.empty
    rw [h] at this
    rw [Option.some.inj this]
    exact he
  · have hne : ∀ e ∈ l, e.1 ≠ k := fun e he hke => hk ⟨e, he, hke⟩
    rw [plainOptions.setAll_apply_of_ne l k hne] at h
    exact Option.noConfusion h

/-- C12: on a stream that starts with count well-formed entries (known tags,
payloads of the width of their tag, non-negative lengths) followed by any
trailing octets, decode succeeds, advances the cursor by the sum over the
entries of 2 + payload width, the payload width being that of the value the
entry stands for, and leaves exactly the trailing octets unread; when the
target block is empty and the keys are pairwise distinct, that sum is what
size returns for the resulting block, in whatever order size visits it. -/
theorem plainOptions.decode_consumes (tc : TypeCodes) (o : plainOptions)
    (ws : List WireEntry) (rest : List Byte) (c : Nat) (hws : ∀ w ∈ ws, w.WellFormed tc) :
    plainOptions.decode tc o ⟨WireEntry.flat ws ++ rest, c⟩ (ws.length : Int)
        = .ok (o.putAll tc ws, ⟨rest, c + (ws.map (fun w => 2 + w.payload.length)).sum⟩) ∧
      (∀ w ∈ ws, ∃ v : optValue, w.value tc = some v ∧ v.payloadWidth = w.payload.length) ∧
      (o = plainOptions.empty → (ws.map WireEntry.optKey).Nodup →
        ∀ trav : List (connectOption × optValue), (o.putAll tc ws).IsRange trav →
          (o.putAll tc ws).size trav
            = .ok ((ws.map (fun w => 2 + w.payload.length)).sum)) := by
  refine ⟨?_, ?_, ?_⟩
  · rw [plainOptions.decode, Int.toNat_ofNat, plainOptions.decodeLoop_wire tc ws hws,
      WireEntry.flat_length]
  · intro w hw
    obtain ⟨v, hv⟩ := Option.ne_none_iff_exists'.1 (hws w hw)
    exact ⟨v, hv, (WireEntry.value_payloadWidth tc w v hv).1⟩
  · intro ho hnd trav htrav
    obtain ⟨l, h1, h2, h3, h4⟩ := plainOptions.exists_entries tc ws hws
    rw [ho, h2] at htrav ⊢
    have hl : (plainOptions.empty.setAll l).IsRange l :=
      plainOptions.setAll_isRange l (by rw [h1]; exact hnd)
    have hno : ∀ k, (plainOptions.empty.setAll l) k ≠ some .other := by
      intro k hk
      exact h4 _ ((hl.2 k _).2 hk) rfl
    rw [plainOptions.size_eq _ trav htrav hno, plainOptions.specSize, ← h3]
    exact congrArg Except.ok ((hl.perm).map _).sum_eq.symm

theorem plainOptions.decode_consumes_witness :
    (∀ w ∈ [(⟨1, 28, [1]⟩ : WireEntry), ⟨5, 3, [9, 0, 0, 0]⟩], w.WellFormed hdbTypeCodes) ∧
      plainOptions.decode hdbTypeCodes plainOptions.empty
          ⟨[1, 28, 1, 5, 3, 9, 0, 0, 0, 42], 0⟩ 2
        = .ok (plainOptions.empty.putAll hdbTypeCodes [⟨1, 28, [1]⟩, ⟨5, 3, [9, 0, 0, 0]⟩],
            ⟨[42], 9⟩) :=
  ⟨by decide,
    (plainOptions.decode_consumes hdbTypeCodes plainOptions.empty
      [⟨1, 28, [1]⟩, ⟨5, 3, [9, 0, 0, 0]⟩] [42] 0 (by decide)).1⟩

/-! ### Size and encoded length of a sequence -/

theorem multiLineOptions.encodeLoop_length (tc : TypeCodes)
    (rng : Nat → List (connectOption × optValue)) (ms : List plainOptions) (i : Nat)
    (hr : ∀ (j : Nat) (m : plainOptions), ms[j]? = some m → m.IsRange (rng (i + j)))
    (hv : ∀ m ∈ ms, ∀ k, m k ≠ some .other) (enc : Encoder) :
    ∃ out : List Byte, multiLineOptions.encodeLoop tc rng i ms enc = .ok ⟨enc.wr ++ out⟩ ∧
      out.length = (ms.map plainOptions.specSize).sum + 2 * ms.length := by
  induction ms generalizing i enc with
  | nil => exact ⟨[], by simp [multiLineOptions.encodeLoop], rfl⟩
  | cons m ms ih =>
    have hm : m.IsRange (rng i) := by
      have := hr 0 m (by simp)
      simpa using this
    have hs : ∀ (j : Nat) (x : plainOptions), ms[j]? = some x → x.IsRange (rng (i + 1 + j)) := by
      intro j x hj
      have := hr (j + 1) x (by simpa using hj)
      have e : i + (j + 1) = i + 1 + j := by omega
      rw [e] at this
      exact this
    have hno := hm.ne_other (hv m (List.mem_cons_self _ _))
    have hlen : (plainOptions.wireBytes tc (rng i)).length = m.specSize := by
      rw [plainOptions.wireBytes_length tc _ hno, plainOptions.specSize]
      exact ((hm.perm).map _).sum_eq
    obtain ⟨out, h1, h2⟩ := ih (i + 1) hs (fun x hx => hv x (List.mem_cons_of_mem _ hx))
      ⟨(enc.Int16 (toInt16 m.len)).wr ++ plainOptions.wireBytes tc (rng i)⟩
    refine ⟨leBytes 2 m.len ++ plainOptions.wireBytes tc (rng i) ++ out, ?_, ?_⟩
    · rw [multiLineOptions.encodeLoop, plainOptions.encode_eq tc _ hno]
      simp only [Encoder.Int16_toInt16, List.append_assoc] at h1 ⊢
      exact h1
    · simp only [List.length_append, leBytes_length, hlen, h2, List.map_cons, List.sum_cons,
        List.length_cons]
      omega

/-- C13: for a sequence whose blocks hold values of the six option types, whatever
the orders in which size and encode visit the blocks, size returns a number n,
encode succeeds and appends exactly n + 2 * len(s) octets: the octets size
counts and two more per element for its entry count; so the two numbers are
equal only when the sequence is empty. -/
theorem multiLineOptions.encode_length_eq_size_add (tc : TypeCodes) (s : multiLineOptions)
    (rngS rngE : Nat → List (connectOption × optValue)) (enc : Encoder)
    (hs : s.len ≤ s.cap)
    (hrS : ∀ (i : Nat) (m : plainOptions), s.elems[i]? = some m → m.IsRange (rngS i))
    (hrE : ∀ (i : Nat) (m : plainOptions), s.elems[i]? = some m → m.IsRange (rngE i))
    (hv : ∀ m ∈ s.elems, ∀ k, m k ≠ some .other) :
    ∃ (n : Nat) (out : List Byte), s.size rngS = .ok n ∧
      s.encode tc rngE enc = .ok ⟨enc.wr ++ out⟩ ∧
      out.length = n + 2 * s.len ∧ (out.length = n ↔ s.len = 0) := by
  have hsz : ∀ (j : Nat) (m : plainOptions), s.elems[j]? = some m →
      m.size (rngS (0 + j)) = .ok m.specSize := by
    intro j m hj
    rw [Nat.zero_add]
    exact m.size_eq (rngS j) (hrS j m hj) (hv m (List.getElem?_mem hj))
  have h1 := multiLineOptions.seq_sizeLoop_eq rngS s.elems 0 0 hsz
  obtain ⟨out, h2, h3⟩ := multiLineOptions.encodeLoop_length tc rngE s.elems 0
    (by simpa using hrE) hv enc
  rw [s.elems_length hs] at h3
  refine ⟨(s.elems.map plainOptions.specSize).sum, out, ?_, h2, h3, ?_⟩
  · simpa [multiLineOptions.size] using h1
  · rw [h3]
    omega

theorem multiLineOptions.encode_length_eq_size_add_witness :
    sampleSeq.len ≤ sampleSeq.cap ∧
      ∃ (n : Nat) (out : List Byte), sampleSeq.size sampleRng = .ok n ∧
        sampleSeq.encode hdbTypeCodes sampleRng ⟨[]⟩ = .ok ⟨[] ++ out⟩ ∧
        out.length = n + 2 * sampleSeq.len ∧ (out.length = n ↔ sampleSeq.len = 0) :=
  ⟨by decide,
    multiLineOptions.encode_length_eq_size_add hdbTypeCodes sampleSeq sampleRng sampleRng ⟨[]⟩
      (by decide) sampleSeq_isRange sampleSeq_isRange sampleSeq_ne_other⟩

/-! ### Merging and counts that are not positive -/

/-- C14: decode stores into the block it is called on and keeps what it does not
overwrite: after decode of count well-formed entries, under every key that is
the key of none of them the block holds what it held before, an entry that
was there with its value included; and decode with count = 0 gives back the
block as it was and the cursor where it was. -/
theorem plainOptions.decode_merges (tc : TypeCodes) (o : plainOptions) (ws : List WireEntry)
    (rest : List Byte) (c : Nat) (k : connectOption) (hws : ∀ w ∈ ws, w.WellFormed tc)
    (hk : ∀ w ∈ ws, w.optKey ≠ k) :
    (∃ p : plainOptions,
      plainOptions.decode tc o ⟨WireEntry.flat ws ++ rest, c⟩ (ws.length : Int)
        = .ok (p, ⟨rest, c + (WireEntry.flat ws).length⟩) ∧
      p k = o k ∧ ∀ v : optValue, o k = some v → p k = some v) ∧
      ∀ (q : plainOptions) (dec : Decoder), plainOptions.decode tc q dec 0 = .ok (q, dec) := by
  refine ⟨⟨o.putAll tc ws, ?_, plainOptions.putAll_apply_of_ne tc ws k hk o, ?_⟩, ?_⟩
  · rw [plainOptions.decode, Int.toNat_ofNat, plainOptions.decodeLoop_wire tc ws hws]
  · intro v hv
    rw [plainOptions.putAll_apply_of_ne tc ws k hk o, hv]
  · intro q dec
    rfl

theorem plainOptions.decode_merges_witness :
    (∀ w ∈ [(⟨5, 3, [9, 0, 0, 0]⟩ : WireEntry)], w.WellFormed hdbTypeCodes) ∧
      (∀ w ∈ [(⟨5, 3, [9, 0, 0, 0]⟩ : WireEntry)], w.optKey ≠ ⟨1, by decide⟩) ∧
      ∃ p : plainOptions,
        plainOptions.decode hdbTypeCodes sampleBlock ⟨[5, 3, 9, 0, 0, 0, 42], 0⟩ 1
          = .ok (p, ⟨[42], 6⟩) ∧
        p ⟨1, by decide⟩ = sampleBlock ⟨1, by decide⟩ := by
  obtain ⟨⟨p, h1, h2, _⟩, _⟩ := plainOptions.decode_merges hdbTypeCodes sampleBlock
    [⟨5, 3, [9, 0, 0, 0]⟩] [42] 0 ⟨1, by decide⟩ (by decide) (by decide)
  exact ⟨by decide, by decide, p, h1, h2⟩

theorem WireLine.lines_flat_append (ls ms : List WireLine) :
    WireLine.flat (ls ++ ms) = WireLine.flat ls ++ WireLine.flat ms := by
  simp [WireLine.flat]

/-- Two octets that read as a negative `int16` are the sub-record of a block with
no entries. -/
theorem WireLine.negative_count (tc : TypeCodes) (b0 b1 : Byte)
    (hb : 32768 ≤ b0.val + 256 * b1.val) :
    ∃ l : WireLine, l.bytes = [b0, b1] ∧ l.cnt.val < 0 ∧ l.cnt = toInt16 (leNat [b0, b1]) ∧
      l.WellFormed tc ∧ l.block tc = plainOptions.empty := by
  have h0 := b0.isLt
  have h1 := b1.isLt
  have hx : leNat [b0, b1] = b0.val + 256 * b1.val := by simp [leNat]
  have hv : (toInt16 (leNat [b0, b1] : Nat)).val = (b0.val + 256 * b1.val : Int) - 65536 := by
    rw [hx]
    simp only [toInt16]
    omega
  refine ⟨⟨toInt16 (leNat [b0, b1]), []⟩, ?_, ?_, rfl, ⟨?_, by simp⟩, rfl⟩
  · have hn : ((toInt16 (leNat [b0, b1] : Nat)).val % 65536).toNat = b0.val + 256 * b1.val := by
      rw [hv]
      omega
    have e0 : byteOf (b0.val + 256 * b1.val) = b0 := by
      apply Fin.ext
      show (b0.val + 256 * b1.val) % 256 = b0.val
      omega
    have e1 : byteOf ((b0.val + 256 * b1.val) / 256) = b1 := by
      apply Fin.ext
      show (b0.val + 256 * b1.val) / 256 % 256 = b1.val
      omega
    simp only [WireLine.bytes, hn, leBytes, e0, e1, WireEntry.flat, List.map_nil,
      List.flatten_nil, List.append_nil]
  · rw [hv]
    omega
  · show ([] : List WireEntry).length = (toInt16 (leNat [b0, b1] : Nat)).val.toNat
    rw [hv]
    simp only [List.length_nil]
    omega

/-- C15: decode of a block with a negative count does not fail, reads nothing and
gives back the block as it was; so in decode of a sequence an element whose two
count octets read as a negative `int16` (0x8000 to 0xFFFF) becomes the empty
block, and the next sub-record is read right after those two octets. -/
theorem multiLineOptions.decode_negative_count (tc : TypeCodes) (o : plainOptions)
    (dec : Decoder) (cnt : Int) (prior : multiLineOptions) (pre post : List WireLine)
    (b0 b1 : Byte) (rest : List Byte) (c : Nat) (hneg : cnt < 0)
    (hpre : ∀ l ∈ pre, l.WellFormed tc) (hpost : ∀ l ∈ post, l.WellFormed tc)
    (hb : 32768 ≤ b0.val + 256 * b1.val) :
    plainOptions.decode tc o dec cnt = .ok (o, dec) ∧
      (toInt16 (leNat [b0, b1])).val < 0 ∧
      ∃ s : multiLineOptions,
        multiLineOptions.decode tc prior
            ⟨WireLine.flat pre ++ (b0 :: b1 :: (WireLine.flat post ++ rest)), c⟩
            ((pre.length + 1 + post.length : Nat) : Int)
          = .ok (s, ⟨rest, c + ((WireLine.flat pre).length + 2 + (WireLine.flat post).length)⟩) ∧
        s.len = pre.length + 1 + post.length ∧
        s.elems = pre.map (WireLine.block tc) ++ plainOptions.empty :: post.map (WireLine.block tc) ∧
        s.elems[pre.length]? = some plainOptions.empty := by
  obtain ⟨l, hl1, hl2, hl3, hl4, hl5⟩ := WireLine.negative_count tc b0 b1 hb
  refine ⟨?_, by rw [← hl3]; exact hl2, ?_⟩
  · have h0 : cnt.toNat = 0 := by omega
    rw [plainOptions.decode, h0]
    rfl
  · have hls : ∀ x ∈ pre ++ l :: post, x.WellFormed tc := by
      intro x hx
      rcases List.mem_append.1 hx with h | h
      · exact hpre x h
      · rcases List.mem_cons.1 h with rfl | h
        · exact hl4
        · exact hpost x h
    have hlen : (pre ++ l :: post).length = pre.length + 1 + post.length := by
      simp only [List.length_append, List.length_cons]
      omega
    have hflat : WireLine.flat (pre ++ l :: post)
        = WireLine.flat pre ++ (b0 :: b1 :: WireLine.flat post) := by
      rw [WireLine.lines_flat_append, WireLine.lines_flat_cons, hl1]
      rfl
    obtain ⟨arr, ha, harr⟩ := prior.reset_ok (pre ++ l :: post).length
    obtain ⟨s, h1, h2, h3⟩ :=
      multiLineOptions.decodeLoop_zero tc (pre ++ l :: post) hls rest c arr harr
    rw [hflat, hlen] at h1
    rw [hlen] at h2 ha
    rw [List.map_append, List.map_cons, hl5] at h3
    refine ⟨s, ?_, h2, h3, ?_⟩
    · rw [multiLineOptions.decode, ha]
      simp only [Int.toNat_ofNat, List.append_assoc, List.cons_append, List.length_append,
        List.length_cons] at h1 ⊢
      rw [h1]
      congr 3
      omega
    · rw [h3, List.getElem?_append_right (by simp)]
      simp

theorem multiLineOptions.decode_negative_count_witness :
    ((-1 : Int) < 0) ∧ (∀ l ∈ sampleLines, l.WellFormed hdbTypeCodes) ∧
      (32768 ≤ (255 : Byte).val + 256 * (255 : Byte).val) ∧
      plainOptions.decode hdbTypeCodes sampleBlock ⟨[1, 2, 3], 0⟩ (-1)
        = .ok (sampleBlock, ⟨[1, 2, 3], 0⟩) ∧
      (toInt16 (leNat [255, 255])).val < 0 ∧
      ∃ s : multiLineOptions,
        multiLineOptions.decode hdbTypeCodes sampleSeq
            ⟨WireLine.flat [] ++ (255 :: 255 :: (WireLine.flat sampleLines ++ [])), 0⟩
            (([] : List WireLine).length + 1 + sampleLines.length : Nat)
          = .ok (s, ⟨[], 0 + ((WireLine.flat []).length + 2
              + (WireLine.flat sampleLines).length)⟩) ∧
        s.len = ([] : List WireLine).length + 1 + sampleLines.length ∧
        s.elems = ([] : List WireLine).map (WireLine.block hdbTypeCodes)
          ++ plainOptions.empty :: sampleLines.map (WireLine.block hdbTypeCodes) ∧
        s.elems[([] : List WireLine).length]? = some plainOptions.empty :=
  ⟨by decide, by decide, by decide,
    multiLineOptions.decode_negative_count hdbTypeCodes sampleBlock ⟨[1, 2, 3], 0⟩ (-1)
      sampleSeq [] sampleLines 255 255 [] 0 (by decide) (by simp) (by decide) (by decide)⟩

end hdb
